import Mathlib

/-!
SimpleVector over ArrayPtr.

A shallow embedding of `simple-vector/array_ptr.h` and `simple-vector/simple_vector.h`.

Modelling conventions.

* A heap block is the list of its slots; the null pointer is the empty list (`ArrayPtr(size_t)`
  never allocates a block of length zero).  A pointer into a block is its offset from the start
  of the block, so `begin()` is offset `0` and `end()` is offset `size_`.
* Reading or writing a slot outside the block is undefined behaviour in the source; here such an
  access yields `none`, and so does every operation that performs one.
* `size_t` values are natural numbers.  The only arithmetic the container does on them is
  `2 * capacity_ + 1`, `size_tmp + 1` and `--size_`; the first two leave the range of `size_t` only
  for a block of at least `2 ^ 63` elements, which no allocation delivers, and the decrement is
  guarded explicitly where the source requires a non-empty vector.
* What the language leaves to the element type is a parameter (`ElemOps`): the content of a slot
  of a fresh `new Type[n]` block and the value left behind in a slot after `std::move` out of it.
  `Type{}` is `default`.
* The element argument of `PushBack` and `Insert` is a reference (`ItemRef`): to an object
  outside the buffer of the vector, or to a slot of the buffer the vector owns when the call is
  made.  The functions read it where the source reads it, after the growth and the shift; a
  reference into a block that has been released by then dangles, and reading it yields `none`.
-/

namespace SimpleVec

/-- Behaviour of the element type that the container code does not determine. -/
structure ElemOps (T : Type) where
  /-- Content of slot `i` of a block just returned by `new Type[n]`. -/
  fresh : Nat → T
  /-- Value a slot holds after its content has been moved out with `std::move`. -/
  moved : T → T

/-- Source `ArrayPtr<Type>`: the owned heap block (`raw_ptr_`), `[]` for `nullptr`. -/
structure ArrayPtr (T : Type) where
  raw_ptr_ : List T
deriving DecidableEq

/-- Source `SimpleVector<Type>`: the three data members. -/
structure SimpleVector (T : Type) where
  size_ : Nat
  capacity_ : Nat
  array_ : ArrayPtr T
deriving DecidableEq

variable {T : Type}

/-! ## array_ptr.h -/

/-- Source `ArrayPtr()`: the null pointer. -/
def ArrayPtr.null : ArrayPtr T := ⟨[]⟩

/-- Source `ArrayPtr(size_t size)`: `raw_ptr_ = size != 0 ? new Type[size] : nullptr`. -/
def ArrayPtr.alloc (E : ElemOps T) (size : Nat) : ArrayPtr T :=
  if size ≠ 0 then ⟨(List.range size).map E.fresh⟩ else ⟨[]⟩

/-- Read through `raw_ptr_[index]`. -/
def ArrayPtr.load (a : ArrayPtr T) (index : Nat) : Option T :=
  a.raw_ptr_[index]?

/-- Write through `raw_ptr_[index]`. -/
def ArrayPtr.store (a : ArrayPtr T) (index : Nat) (x : T) : Option (ArrayPtr T) :=
  if index < a.raw_ptr_.length then some ⟨a.raw_ptr_.set index x⟩ else none

/-- Source `ArrayPtr::operator bool`. -/
def ArrayPtr.toBool (a : ArrayPtr T) : Bool :=
  !a.raw_ptr_.isEmpty

/-- Source `ArrayPtr::swap`. -/
def ArrayPtr.swap (a other : ArrayPtr T) : ArrayPtr T × ArrayPtr T :=
  (other, a)

/-! ## Standard algorithms used by simple_vector.h -/

/-- Source `std::copy(std::make_move_iterator(first), std::make_move_iterator(last), d_first)`:
`while (first != last) *d_first++ = std::move(*first++);` with `first`, `last` offsets into `src`
and `d` an offset into `dst`.  The result is the pair (source block, destination block). -/
def moveCopy (E : ElemOps T) (src : ArrayPtr T) (first last : Nat) (dst : ArrayPtr T) (d : Nat) :
    Option (ArrayPtr T × ArrayPtr T) :=
  if first = last then some (src, dst)
  else if first < last then
    match src.load first with
    | none => none
    | some x =>
      match dst.store d x with
      | none => none
      | some dst1 =>
        match src.store first (E.moved x) with
        | none => none
        | some src1 => moveCopy E src1 (first + 1) last dst1 (d + 1)
  else none
termination_by last - first

/-- Source `std::equal(first1, last1, first2)` on the blocks `a` and `b`:
`for (; first1 != last1; ++first1, ++first2) if (!(*first1 == *first2)) return false; return true;`. -/
def stdEqual [DecidableEq T] (a : ArrayPtr T) (first1 last1 : Nat) (b : ArrayPtr T) (first2 : Nat) :
    Option Bool :=
  if first1 = last1 then some true
  else if first1 < last1 then
    match a.load first1, b.load first2 with
    | some x, some y => if x = y then stdEqual a (first1 + 1) last1 b (first2 + 1) else some false
    | _, _ => none
  else none
termination_by last1 - first1

/-! ## simple_vector.h -/

/-- Source `SimpleVector()`: size 0, capacity 0, null buffer. -/
def SimpleVector.empty : SimpleVector T :=
  { size_ := 0, capacity_ := 0, array_ := ArrayPtr.null }

/-- Source `GetSize`. -/
def GetSize (v : SimpleVector T) : Nat := v.size_

/-- Source `GetCapacity`. -/
def GetCapacity (v : SimpleVector T) : Nat := v.capacity_

/-- Source `IsEmpty`. -/
def IsEmpty (v : SimpleVector T) : Bool := v.size_ == 0

/-- Source `Fill(start, stop)` on the block the two pointers point into:
`for (Iterator i = start; i != stop; ++i) *i = Type{};`. -/
def Fill [Inhabited T] (a : ArrayPtr T) (start stop : Nat) : Option (ArrayPtr T) :=
  if start = stop then some a
  else if start < stop then
    match a.store start default with
    | none => none
    | some a1 => Fill a1 (start + 1) stop
  else none
termination_by stop - start

/-- Source `Resize(new_size)`. -/
def Resize [Inhabited T] (E : ElemOps T) (new_size : Nat) (v : SimpleVector T) :
    Option (SimpleVector T) :=
  if new_size ≤ v.size_ then
    some { v with size_ := new_size }
  else if new_size ≤ v.capacity_ then
    match Fill v.array_ v.size_ new_size with
    | none => none
    | some a => some { v with array_ := a, size_ := new_size }
  else
    let array_tmp := ArrayPtr.alloc E new_size
    match moveCopy E v.array_ 0 v.size_ array_tmp 0 with
    | none => none
    | some (old, array_tmp1) =>
      match Fill array_tmp1 v.size_ new_size with
      | none => none
      | some array_tmp2 =>
        let (array1, _) := ArrayPtr.swap old array_tmp2
        some { size_ := new_size, capacity_ := new_size, array_ := array1 }

/-- Source `Reserve(new_capacity)`. -/
def Reserve [Inhabited T] (E : ElemOps T) (new_capacity : Nat) (v : SimpleVector T) :
    Option (SimpleVector T) :=
  if new_capacity > v.capacity_ then
    let size_tmp := v.size_
    match Resize E new_capacity v with
    | none => none
    | some v1 => some { v1 with size_ := size_tmp }
  else some v

/-- The two overloads of `PushBack` and of `Insert`: `const Type&` and `Type&&`. -/
inductive Overload where
  | copy : Overload
  | move : Overload
deriving DecidableEq

/-- What the element argument of `PushBack` or `Insert` refers to: an object outside the buffer
of the vector, or the slot at offset `k` of the buffer the vector owns when the call is made
(as in `v.PushBack(v[k])`). -/
inductive ItemRef (T : Type) where
  | outside (x : T) : ItemRef T
  | slot (k : Nat) : ItemRef T
deriving DecidableEq

/-- The growth step of `PushBack` and `PreInsert` reallocates exactly when its guard
`size_ == capacity_` holds: `Resize(2 * capacity_ + 1)` then has `new_size` above both `size_`
and `capacity_` and takes its third branch, whose `array_tmp` releases the old block at the end
of the branch. -/
def growReleases (v : SimpleVector T) : Bool :=
  decide (v.size_ = v.capacity_)

/-- The final assignment of `PushBack` and `Insert`: `array_[dest] = item` (`Overload.copy`) or
`array_[dest] = std::move(item)` (`Overload.move`), on the current block `a`.  The argument is
read here.  With `released` the block the call started with is gone and a reference to one of
its slots dangles; otherwise such a reference reads the slot as it is now, and the move overload
leaves that slot moved-from.  An object outside the buffer is not part of the state. -/
def assignItem (E : ElemOps T) (ov : Overload) (item : ItemRef T) (released : Bool)
    (a : ArrayPtr T) (dest : Nat) : Option (ArrayPtr T) :=
  match item with
  | ItemRef.outside x => a.store dest x
  | ItemRef.slot k =>
    if released then none
    else
      match a.load k with
      | none => none
      | some x =>
        match a.store dest x with
        | none => none
        | some a1 =>
          match ov with
          | Overload.copy => some a1
          | Overload.move => a1.store k (E.moved x)

/-- Source `PushBack(item)`, both overloads:
`size_t size_tmp = size_; if (size_ == capacity_) Resize(2 * capacity_ + 1);`
`array_[size_tmp] = item; size_ = size_tmp + 1;` (the move overload assigns `std::move(item)`). -/
def PushBack [Inhabited T] (E : ElemOps T) (ov : Overload) (item : ItemRef T)
    (v : SimpleVector T) : Option (SimpleVector T) :=
  let size_tmp := v.size_
  match (if v.size_ = v.capacity_ then Resize E (2 * v.capacity_ + 1) v else some v) with
  | none => none
  | some v1 =>
    match assignItem E ov item (growReleases v) v1.array_ size_tmp with
    | none => none
    | some a => some { v1 with array_ := a, size_ := size_tmp + 1 }

/-- The loop of `PreInsert`:
`for (Type* i = &array_[size_tmp-1]; i >= &array_[n]; --i) *(i + 1) = std::move(*i);`.
The argument `k` is the offset of `i + 1`, so that the pointer one slot before the block, where
the loop stops when `n = 0` and where it starts when `size_tmp = 0`, is `k = 0`. -/
def PreInsertLoop (E : ElemOps T) (n : Nat) : Nat → ArrayPtr T → Option (ArrayPtr T)
  | 0, a => some a
  | k + 1, a =>
    if n ≤ k then
      match a.load k with
      | none => none
      | some x =>
        match a.store (k + 1) x with
        | none => none
        | some a1 =>
          match a1.store k (E.moved x) with
          | none => none
          | some a2 => PreInsertLoop E n k a2
    else some a

/-- Source `PreInsert(n)`. -/
def PreInsert [Inhabited T] (E : ElemOps T) (n : Nat) (v : SimpleVector T) :
    Option (SimpleVector T) :=
  let size_tmp := v.size_
  match (if v.size_ = v.capacity_ then Resize E (2 * v.capacity_ + 1) v else some v) with
  | none => none
  | some v1 =>
    match PreInsertLoop E n size_tmp v1.array_ with
    | none => none
    | some a => some { v1 with array_ := a, size_ := size_tmp + 1 }

/-- Source `Insert(pos, value)`, both overloads, with `pos = begin() + n`:
`size_t n = pos - begin(); PreInsert(n); array_[n] = value; return &array_[n];` (the move
overload assigns `std::move(value)`).  The result is the vector and the offset of the returned
iterator. -/
def Insert [Inhabited T] (E : ElemOps T) (ov : Overload) (n : Nat) (value : ItemRef T)
    (v : SimpleVector T) : Option (SimpleVector T × Nat) :=
  match PreInsert E n v with
  | none => none
  | some v1 =>
    match assignItem E ov value (growReleases v) v1.array_ n with
    | none => none
    | some a => some ({ v1 with array_ := a }, n)

/-- Source `PopBack()`: `assert(!IsEmpty()); --size_;`. -/
def PopBack (v : SimpleVector T) : Option (SimpleVector T) :=
  if IsEmpty v then none else some { v with size_ := v.size_ - 1 }

/-- The loop of `Erase`:
`for (Type* i = &array_[n]; i < &array_[size_ - 1]; ++i) *i = std::move(*(i + 1));`
with `i` the running offset and `last` the offset `size_ - 1`. -/
def EraseLoop (E : ElemOps T) (a : ArrayPtr T) (i last : Nat) : Option (ArrayPtr T) :=
  if i < last then
    match a.load (i + 1) with
    | none => none
    | some x =>
      match a.store i x with
      | none => none
      | some a1 =>
        match a1.store (i + 1) (E.moved x) with
        | none => none
        | some a2 => EraseLoop E a2 (i + 1) last
  else some a
termination_by last - i

/-- Source `Erase(pos)` with `pos = begin() + n`; the result is the vector and the offset of the returned
iterator `&array_[n]`.  `pos` has to point at an element, so there is no call on an empty vector
(`size_ - 1` and `--size_` would wrap). -/
def Erase (E : ElemOps T) (n : Nat) (v : SimpleVector T) : Option (SimpleVector T × Nat) :=
  if v.size_ = 0 then none
  else
    match EraseLoop E v.array_ n (v.size_ - 1) with
    | none => none
    | some a => some ({ v with array_ := a, size_ := v.size_ - 1 }, n)

/-- Source `swap(other)`. -/
def swap (v other : SimpleVector T) : SimpleVector T × SimpleVector T :=
  let (a, b) := ArrayPtr.swap v.array_ other.array_
  ({ size_ := other.size_, capacity_ := other.capacity_, array_ := a },
   { size_ := v.size_, capacity_ := v.capacity_, array_ := b })

/-- Source `Clear()`. -/
def Clear (v : SimpleVector T) : SimpleVector T := { v with size_ := 0 }

/-- Source `begin()`, as an offset into the block. -/
def SimpleVector.begin (_v : SimpleVector T) : Nat := 0

/-- Source `end()`, as an offset into the block: `array_.Get() + size_`. -/
def SimpleVector.end_ (v : SimpleVector T) : Nat := v.size_

/-- Source `operator[](index)`: `assert(index < size_); return array_[index];`. -/
def index (v : SimpleVector T) (i : Nat) : Option T :=
  if i < v.size_ then v.array_.load i else none

/-- Source `std::copy(first, last, d_first)` from an initializer list into the block `dst` at offset `d`:
`while (first != last) *d_first++ = *first++;`. -/
def copyInit : List T → ArrayPtr T → Nat → Option (ArrayPtr T)
  | [], dst, _ => some dst
  | x :: xs, dst, d =>
    match dst.store d x with
    | none => none
    | some dst1 => copyInit xs dst1 (d + 1)

/-- Source `SimpleVector(std::initializer_list<Type> init)`:
size and capacity `init.size()`, a block of `init.size()` slots, then
`std::copy(init.begin(), init.end(), begin())`. -/
def ofInitList (E : ElemOps T) (init : List T) : Option (SimpleVector T) :=
  match copyInit init (ArrayPtr.alloc E init.length) 0 with
  | none => none
  | some a => some { size_ := init.length, capacity_ := init.length, array_ := a }

/-- Source `operator==`: `std::equal(lhs.begin(), lhs.end(), rhs.begin())`. -/
def operator_eq [DecidableEq T] (lhs rhs : SimpleVector T) : Option Bool :=
  stdEqual lhs.array_ 0 lhs.size_ rhs.array_ 0

/-! ## Specification vocabulary -/

/-- Representation invariant: `size_ ≤ capacity_` and the block has `capacity_` slots. -/
def Wf (v : SimpleVector T) : Prop :=
  v.size_ ≤ v.capacity_ ∧ v.array_.raw_ptr_.length = v.capacity_

/-- The logical element sequence: the slots at offsets `[0, size_)`. -/
def SimpleVector.toList (v : SimpleVector T) : List T :=
  v.array_.raw_ptr_.take v.size_

/-- The capacity sequence of the spec: `0, 1, 3, 7, 15, …`, each value `2 * previous + 1`. -/
def capSeq : Nat → Nat
  | 0 => 0
  | k + 1 => 2 * capSeq k + 1

/-- The capacity is the least member of the capacity sequence that is at least the size. -/
def LeastCap (v : SimpleVector T) : Prop :=
  ∃ k, v.capacity_ = capSeq k ∧ v.size_ ≤ capSeq k ∧ ∀ j, v.size_ ≤ capSeq j → capSeq k ≤ capSeq j

/-- Repeated `PushBack`: each element of the list, an object outside the buffer, is pushed in
turn. -/
def pushAll [Inhabited T] (E : ElemOps T) (ov : Overload) :
    List T → SimpleVector T → Option (SimpleVector T)
  | [], v => some v
  | x :: xs, v =>
    match PushBack E ov (ItemRef.outside x) v with
    | none => none
    | some v1 => pushAll E ov xs v1

/-- An element model for `int`-like types: fresh slots hold `0`, moving copies. -/
def natOps : ElemOps Nat := { fresh := fun _ => 0, moved := id }

instance (v : SimpleVector T) : Decidable (Wf v) :=
  inferInstanceAs (Decidable (v.size_ ≤ v.capacity_ ∧ v.array_.raw_ptr_.length = v.capacity_))

/-! ## Constructors, assignment, checked access and comparisons -/

/-- Source `std::copy(first, last, d_first)` from the block `src` into the block `dst`:
`while (first != last) *d_first++ = *first++;` with `first`, `last` offsets into `src` and `d` an
offset into `dst`.  The source is read only. -/
def stdCopy (src : ArrayPtr T) (first last : Nat) (dst : ArrayPtr T) (d : Nat) :
    Option (ArrayPtr T) :=
  if first = last then some dst
  else if first < last then
    match src.load first with
    | none => none
    | some x =>
      match dst.store d x with
      | none => none
      | some dst1 => stdCopy src (first + 1) last dst1 (d + 1)
  else none
termination_by last - first

/-- Source `std::fill_n(first, count, value)` on the block `a`:
`for (Size i = 0; i < count; ++i) *first++ = value;`. -/
def fill_n (value : T) : Nat → ArrayPtr T → Nat → Option (ArrayPtr T)
  | 0, a, _ => some a
  | count + 1, a, first =>
    match a.store first value with
    | none => none
    | some a1 => fill_n value count a1 (first + 1)

/-- Source `std::lexicographical_compare(first1, last1, first2, last2)` on the blocks `a`, `b`:
`for (; first1 != last1 && first2 != last2; ++first1, ++first2) {`
`if (*first1 < *first2) return true; if (*first2 < *first1) return false; }`
`return first1 == last1 && first2 != last2;`. -/
def lexicographical_compare [LinearOrder T] (a : ArrayPtr T) (first1 last1 : Nat)
    (b : ArrayPtr T) (first2 last2 : Nat) : Option Bool :=
  if first1 = last1 ∨ first2 = last2 then
    some (decide (first1 = last1) && decide (first2 ≠ last2))
  else if first1 < last1 then
    match a.load first1, b.load first2 with
    | some x, some y =>
      if x < y then some true
      else if y < x then some false
      else lexicographical_compare a (first1 + 1) last1 b (first2 + 1) last2
    | _, _ => none
  else none
termination_by last1 - first1

/-- Source `ReserveProxyObj`: the requested capacity. -/
structure ReserveProxyObj where
  capacity_ : Nat
deriving DecidableEq

/-- Source free function `Reserve(capacity_to_reserve)`, which builds the proxy object. -/
def ReserveHint (capacity_to_reserve : Nat) : ReserveProxyObj :=
  ⟨capacity_to_reserve⟩

/-- Source `SimpleVector(size_t size, const Type& value)`: size and capacity `size`, a block of
`size` slots, then `std::fill_n(array_.Get(), size, value)`. -/
def ofSizeValue (E : ElemOps T) (size : Nat) (value : T) : Option (SimpleVector T) :=
  match fill_n value size (ArrayPtr.alloc E size) 0 with
  | none => none
  | some a => some { size_ := size, capacity_ := size, array_ := a }

/-- Source `SimpleVector(size_t size)`: delegates to `SimpleVector(size, Type{})`. -/
def ofSize [Inhabited T] (E : ElemOps T) (size : Nat) : Option (SimpleVector T) :=
  ofSizeValue E size default

/-- Source `SimpleVector(ReserveProxyObj object)`: the members start from their default
initialisers (0, 0, null), then `Reserve(object.capacity_)`. -/
def ofReserve [Inhabited T] (E : ElemOps T) (object : ReserveProxyObj) : Option (SimpleVector T) :=
  Reserve E object.capacity_ SimpleVector.empty

/-- Source `SimpleVector(const SimpleVector& other)`: size and capacity of `other`, a block of
`other.capacity_` slots, then `std::copy(other.begin(), other.end(), begin())`.  The argument is
read through const iterators only. -/
def copyCtor (E : ElemOps T) (other : SimpleVector T) : Option (SimpleVector T) :=
  match stdCopy other.array_ 0 other.size_ (ArrayPtr.alloc E other.capacity_) 0 with
  | none => none
  | some a => some { size_ := other.size_, capacity_ := other.capacity_, array_ := a }

/-- Source `SimpleVector(SimpleVector&& other)`: the members start from their default
initialisers, then `swap(other)`.  The result is (the new vector, `other` afterwards). -/
def moveCtor (other : SimpleVector T) : SimpleVector T × SimpleVector T :=
  swap SimpleVector.empty other

/-- A reference argument of an assignment operator: the vector assigned to (`this`) or another
object.  The source tells the two apart with `&array_ != &rhs.array_`. -/
inductive RhsRef (T : Type) where
  | this : RhsRef T
  | obj (rhs : SimpleVector T) : RhsRef T

/-- Source `operator=(const SimpleVector& rhs)`:
`if (&array_ != &rhs.array_) { SimpleVector vector_tmp(rhs); swap(vector_tmp); }`. -/
def copyAssign (E : ElemOps T) (v : SimpleVector T) : RhsRef T → Option (SimpleVector T)
  | RhsRef.this => some v
  | RhsRef.obj rhs =>
    match copyCtor E rhs with
    | none => none
    | some vector_tmp => some (swap v vector_tmp).1

/-- Source `operator=(SimpleVector&& rhs)`: `if (&array_ != &rhs.array_) swap(rhs);`.
The result is (the vector assigned to, the object `rhs` refers to afterwards). -/
def moveAssign (v : SimpleVector T) : RhsRef T → SimpleVector T × SimpleVector T
  | RhsRef.this => (v, v)
  | RhsRef.obj rhs => swap v rhs

/-- The exception thrown by `At`. -/
inductive Exn where
  | out_of_range (what : String) : Exn
deriving DecidableEq

/-- Source `At(index)` (both overloads):
`if (index >= size_) throw std::out_of_range("Array size exceeding"); return array_[index];`.
The function reads the vector and returns the element only. -/
def At (v : SimpleVector T) (index : Nat) : Except Exn (Option T) :=
  if index ≥ v.size_ then Except.error (Exn.out_of_range "Array size exceeding")
  else Except.ok (v.array_.load index)

/-- Source `operator!=`: `!(lhs == rhs)`. -/
def operator_ne [DecidableEq T] (lhs rhs : SimpleVector T) : Option Bool :=
  (operator_eq lhs rhs).map fun r => !r

/-- Source `operator<`:
`std::lexicographical_compare(lhs.begin(), lhs.end(), rhs.begin(), rhs.end())`. -/
def operator_lt [LinearOrder T] (lhs rhs : SimpleVector T) : Option Bool :=
  lexicographical_compare lhs.array_ 0 lhs.size_ rhs.array_ 0 rhs.size_

/-- Source `operator<=`: `!(rhs < lhs)`. -/
def operator_le [LinearOrder T] (lhs rhs : SimpleVector T) : Option Bool :=
  (operator_lt rhs lhs).map fun r => !r

/-- Source `operator>`: `rhs < lhs`. -/
def operator_gt [LinearOrder T] (lhs rhs : SimpleVector T) : Option Bool :=
  operator_lt rhs lhs

/-- Source `operator>=`: `!(lhs < rhs)`. -/
def operator_ge [LinearOrder T] (lhs rhs : SimpleVector T) : Option Bool :=
  (operator_lt lhs rhs).map fun r => !r

/-- The invariant of the data model: `capacity_` is the allocated length of the buffer,
`0 ≤ size_ ≤ capacity_`, and `capacity_ = 0` exactly when the buffer holds no allocation. -/
def Inv (v : SimpleVector T) : Prop :=
  v.array_.raw_ptr_.length = v.capacity_ ∧ v.size_ ≤ v.capacity_ ∧
    (v.capacity_ = 0 ↔ v.array_.toBool = false)

instance (v : SimpleVector T) : Decidable (Inv v) :=
  inferInstanceAs (Decidable (v.array_.raw_ptr_.length = v.capacity_ ∧ v.size_ ≤ v.capacity_ ∧
    (v.capacity_ = 0 ↔ v.array_.toBool = false)))

/-- Lexicographic order as the spec words it: the first index where the elements differ decides,
and a proper prefix is smaller. -/
def lexLess [LinearOrder T] : List T → List T → Bool
  | [], [] => false
  | [], _ :: _ => true
  | _ :: _, [] => false
  | x :: xs, y :: ys => if x = y then lexLess xs ys else decide (x < y)


/-- A vector of `int`s with spare capacity: elements `4, 5`, capacity 3, a stale `6` in the
last slot. -/
def sampleSpare : SimpleVector Nat := ⟨2, 3, ⟨[4, 5, 6]⟩⟩

/-- A full vector of `int`s: the single element `7`, capacity 1. -/
def sampleFull : SimpleVector Nat := ⟨1, 1, ⟨[7]⟩⟩


/-! ## Memory accesses inside the block -/

theorem load_of_lt {a : ArrayPtr T} {i : Nat} (h : i < a.raw_ptr_.length) :
    a.load i = some (a.raw_ptr_[i]) := by
  simp [ArrayPtr.load, List.getElem?_eq_getElem h]

theorem store_of_lt {a : ArrayPtr T} {i : Nat} (x : T) (h : i < a.raw_ptr_.length) :
    a.store i x = some ⟨a.raw_ptr_.set i x⟩ := by
  simp [ArrayPtr.store, h]

theorem assignItem_outside (E : ElemOps T) (ov : Overload) (x : T) (released : Bool)
    (a : ArrayPtr T) (dest : Nat) :
    assignItem E ov (ItemRef.outside x) released a dest = a.store dest x := rfl

/-! ## The loops -/

/-- Operation `Fill` inside the block overwrites exactly the slots `[start, stop)` with `Type{}`. -/
theorem Fill_spec [Inhabited T] (a : ArrayPtr T) (start stop : Nat)
    (h1 : start ≤ stop) (h2 : stop ≤ a.raw_ptr_.length) :
    ∃ a1, Fill a start stop = some a1 ∧ a1.raw_ptr_.length = a.raw_ptr_.length ∧
      ∀ j, a1.raw_ptr_[j]? = if start ≤ j ∧ j < stop then some default else a.raw_ptr_[j]? := by
  obtain ⟨d, hd⟩ : ∃ d, stop - start = d := ⟨_, rfl⟩
  induction d generalizing a start with
  | zero =>
    have hs : start = stop := by omega
    subst hs
    refine ⟨a, ?_, rfl, ?_⟩
    · rw [Fill]; simp
    · intro j
      have : ¬ (start ≤ j ∧ j < start) := by omega
      simp [this]
  | succ d ih =>
    have hlt : start < stop := by omega
    have hin : start < a.raw_ptr_.length := by omega
    obtain ⟨a1, hf, hlen, hget⟩ := ih ⟨a.raw_ptr_.set start default⟩ (start + 1)
      (by omega) (by simpa using h2) (by omega)
    refine ⟨a1, ?_, ?_, ?_⟩
    · rw [Fill]
      simp only [Nat.ne_of_lt hlt, hlt, if_true, if_false, store_of_lt _ hin]
      exact hf
    · simpa using hlen
    · intro j
      rw [hget j]
      simp only [List.getElem?_set]
      by_cases hj : start = j
      · subst hj
        simp [hlt, hin]
      · by_cases hj2 : start + 1 ≤ j ∧ j < stop
        · have : start ≤ j ∧ j < stop := by omega
          simp [hj2, this]
        · have : ¬ (start ≤ j ∧ j < stop) := by omega
          simp [hj2, this, hj]

/-- The move-copy of `[first, last)` inside the source block into a large enough destination
succeeds; destination slot `d + t` receives the original source slot `first + t`, the other
destination slots are untouched. -/
theorem moveCopy_spec (E : ElemOps T) (src : ArrayPtr T) (first last : Nat) (dst : ArrayPtr T)
    (d : Nat) (h1 : first ≤ last) (h2 : last ≤ src.raw_ptr_.length)
    (h3 : d + (last - first) ≤ dst.raw_ptr_.length) :
    ∃ src1 dst1, moveCopy E src first last dst d = some (src1, dst1) ∧
      dst1.raw_ptr_.length = dst.raw_ptr_.length ∧
      ∀ j, dst1.raw_ptr_[j]? =
        if d ≤ j ∧ j < d + (last - first) then src.raw_ptr_[first + (j - d)]? else dst.raw_ptr_[j]? := by
  obtain ⟨c, hc⟩ : ∃ c, last - first = c := ⟨_, rfl⟩
  induction c generalizing src first dst d with
  | zero =>
    have hs : first = last := by omega
    subst hs
    refine ⟨src, dst, ?_, rfl, ?_⟩
    · rw [moveCopy]; simp
    · intro j
      have : ¬ (d ≤ j ∧ j < d + (first - first)) := by omega
      rw [if_neg this]
  | succ c ih =>
    have hlt : first < last := by omega
    have hin : first < src.raw_ptr_.length := by omega
    have hdin : d < dst.raw_ptr_.length := by omega
    obtain ⟨src1, dst1, hm, hlen, hget⟩ :=
      ih ⟨src.raw_ptr_.set first (E.moved src.raw_ptr_[first])⟩ (first + 1)
        ⟨dst.raw_ptr_.set d src.raw_ptr_[first]⟩ (d + 1)
        (by omega) (by simpa using h2) (by simp; omega) (by omega)
    refine ⟨src1, dst1, ?_, ?_, ?_⟩
    · rw [moveCopy]
      simp only [Nat.ne_of_lt hlt, hlt, if_true, if_false, load_of_lt hin, store_of_lt _ hdin,
        store_of_lt _ hin]
      exact hm
    · simpa using hlen
    · intro j
      rw [hget j]
      simp only [List.getElem?_set]
      by_cases hj : d = j
      · subst hj
        have e1 : ¬ (d + 1 ≤ d ∧ d < d + 1 + (last - (first + 1))) := by omega
        have e2 : d ≤ d ∧ d < d + (last - first) := by omega
        simp [e1, e2, hdin, List.getElem?_eq_getElem hin]
      · by_cases hj2 : d + 1 ≤ j ∧ j < d + 1 + (last - (first + 1))
        · have e2 : d ≤ j ∧ j < d + (last - first) := by omega
          have e3 : first + 1 + (j - (d + 1)) = first + (j - d) := by omega
          have e4 : first ≠ first + (j - d) := by omega
          simp only [hj2, e2, and_self, if_true, e3, e4, if_false]
        · have e2 : ¬ (d ≤ j ∧ j < d + (last - first)) := by omega
          simp [hj2, e2, hj]

/-- The shifting loop of `PreInsert`, started at the last element with the slot after it inside
the block, succeeds; every slot in `(n, k]` receives the content of its left neighbour and every
slot other than `n` outside that range is untouched. -/
theorem PreInsertLoop_spec (E : ElemOps T) (n k : Nat) (a : ArrayPtr T)
    (h1 : n ≤ k) (h2 : k < a.raw_ptr_.length) :
    ∃ a1, PreInsertLoop E n k a = some a1 ∧ a1.raw_ptr_.length = a.raw_ptr_.length ∧
      ∀ j, j ≠ n → a1.raw_ptr_[j]? =
        if n < j ∧ j ≤ k then a.raw_ptr_[j - 1]? else a.raw_ptr_[j]? := by
  induction k generalizing a with
  | zero =>
    refine ⟨a, rfl, rfl, ?_⟩
    intro j _
    have : ¬ (n < j ∧ j ≤ 0) := by omega
    rw [if_neg this]
  | succ k ih =>
    by_cases hnk : n ≤ k
    · have hk : k < a.raw_ptr_.length := by omega
      obtain ⟨a1, hl, hlen, hget⟩ :=
        ih ⟨(a.raw_ptr_.set (k + 1) a.raw_ptr_[k]).set k (E.moved a.raw_ptr_[k])⟩ hnk
          (by simpa using hk)
      refine ⟨a1, ?_, ?_, ?_⟩
      · have hk1 : k < (a.raw_ptr_.set (k + 1) a.raw_ptr_[k]).length := by simpa using hk
        have hs1 := store_of_lt (a := a) a.raw_ptr_[k] h2
        have hs2 := store_of_lt (a := ⟨a.raw_ptr_.set (k + 1) a.raw_ptr_[k]⟩)
          (E.moved a.raw_ptr_[k]) hk1
        simp only [PreInsertLoop, hnk, if_true, load_of_lt hk, hs1, hs2]
        exact hl
      · simpa using hlen
      · intro j hj
        rw [hget j hj]
        simp only [List.getElem?_set]
        by_cases c1 : n < j ∧ j ≤ k
        · have e1 : n < j ∧ j ≤ k + 1 := by omega
          have e2 : k ≠ j - 1 := by omega
          have e3 : k + 1 ≠ j - 1 := by omega
          simp [c1, e1, e2, e3]
        · by_cases c2 : j = k + 1
          · subst c2
            have e1 : n < k + 1 ∧ k + 1 ≤ k + 1 := by omega
            simp [c1, e1, h2, List.getElem?_eq_getElem hk]
          · have e1 : ¬ (n < j ∧ j ≤ k + 1) := by omega
            have e2 : k ≠ j := by omega
            have e3 : k + 1 ≠ j := by omega
            simp [c1, e1, e2, e3]
    · have hn : n = k + 1 := by omega
      refine ⟨a, ?_, rfl, ?_⟩
      · simp [PreInsertLoop, hnk]
      · intro j _
        have : ¬ (n < j ∧ j ≤ k + 1) := by omega
        simp [this]

/-- The shifting loop of `Erase`, run up to a last element inside the block, succeeds; every slot
in `[i, last)` receives the content of its right neighbour and every slot other than `last`
outside that range is untouched. -/
theorem EraseLoop_spec (E : ElemOps T) (a : ArrayPtr T) (i last : Nat)
    (h1 : i ≤ last) (h2 : last < a.raw_ptr_.length) :
    ∃ a1, EraseLoop E a i last = some a1 ∧ a1.raw_ptr_.length = a.raw_ptr_.length ∧
      ∀ j, j ≠ last → a1.raw_ptr_[j]? =
        if i ≤ j ∧ j < last then a.raw_ptr_[j + 1]? else a.raw_ptr_[j]? := by
  obtain ⟨c, hc⟩ : ∃ c, last - i = c := ⟨_, rfl⟩
  induction c generalizing a i with
  | zero =>
    have hs : i = last := by omega
    subst hs
    refine ⟨a, ?_, rfl, ?_⟩
    · rw [EraseLoop]; simp
    · intro j _
      have : ¬ (i ≤ j ∧ j < i) := by omega
      simp [this]
  | succ c ih =>
    have hlt : i < last := by omega
    have hi : i < a.raw_ptr_.length := by omega
    have hi1 : i + 1 < a.raw_ptr_.length := by omega
    obtain ⟨a1, hl, hlen, hget⟩ :=
      ih ⟨(a.raw_ptr_.set i a.raw_ptr_[i + 1]).set (i + 1) (E.moved a.raw_ptr_[i + 1])⟩ (i + 1)
        (by omega) (by simpa using h2) (by omega)
    refine ⟨a1, ?_, ?_, ?_⟩
    · have hi2 : i + 1 < (a.raw_ptr_.set i a.raw_ptr_[i + 1]).length := by simpa using hi1
      have hs1 := store_of_lt (a := a) a.raw_ptr_[i + 1] hi
      have hs2 := store_of_lt (a := ⟨a.raw_ptr_.set i a.raw_ptr_[i + 1]⟩)
        (E.moved a.raw_ptr_[i + 1]) hi2
      rw [EraseLoop]
      simp only [hlt, if_true, load_of_lt hi1, hs1, hs2]
      exact hl
    · simpa using hlen
    · intro j hj
      rw [hget j hj]
      simp only [List.getElem?_set]
      by_cases c1 : i + 1 ≤ j ∧ j < last
      · have e1 : i ≤ j ∧ j < last := by omega
        have e2 : i + 1 ≠ j + 1 := by omega
        have e3 : i ≠ j + 1 := by omega
        simp [c1, e1, e2, e3]
      · by_cases c2 : j = i
        · subst c2
          have e1 : j ≤ j ∧ j < last := by omega
          simp [c1, e1, hi, List.getElem?_eq_getElem hi1]
        · have e1 : ¬ (i ≤ j ∧ j < last) := by omega
          have e2 : i + 1 ≠ j := by omega
          have e3 : i ≠ j := by omega
          simp [c1, e1, e2, e3]

/-! ## The operations on a well-formed vector -/

theorem alloc_length (E : ElemOps T) (n : Nat) : (ArrayPtr.alloc E n).raw_ptr_.length = n := by
  unfold ArrayPtr.alloc
  split
  · simp
  · simp; omega

theorem toList_length {v : SimpleVector T} (h : Wf v) : v.toList.length = v.size_ := by
  unfold SimpleVector.toList
  rw [List.length_take]
  have := h.1
  have := h.2
  omega

theorem toList_getElem? (v : SimpleVector T) (j : Nat) :
    v.toList[j]? = if j < v.size_ then v.array_.raw_ptr_[j]? else none := by
  unfold SimpleVector.toList
  exact List.getElem?_take

/-- Operation `Resize` on a well-formed vector: it returns, the result is well formed with the
requested size, the capacity grows to `new_size` only when `new_size` exceeds it, the slots below the old
size keep their content and the slots from the old size up to `new_size` hold `Type{}`. -/
theorem Resize_spec [Inhabited T] (E : ElemOps T) (n : Nat) (v : SimpleVector T) (h : Wf v) :
    ∃ w, Resize E n v = some w ∧ Wf w ∧ w.size_ = n ∧
      w.capacity_ = (if n ≤ v.capacity_ then v.capacity_ else n) ∧
      ∀ j, j < n → w.array_.raw_ptr_[j]? =
        if j < v.size_ then v.array_.raw_ptr_[j]? else some default := by
  obtain ⟨hsc, hlen⟩ := h
  by_cases c1 : n ≤ v.size_
  · refine ⟨{ v with size_ := n }, ?_, ⟨?_, hlen⟩, rfl, ?_, ?_⟩
    · simp [Resize, c1]
    · show n ≤ v.capacity_
      omega
    · have : n ≤ v.capacity_ := by omega
      simp [this]
    · intro j hj
      have : j < v.size_ := by omega
      simp [this]
  · by_cases c2 : n ≤ v.capacity_
    · obtain ⟨a1, hf, hl1, hg1⟩ := Fill_spec v.array_ v.size_ n (by omega) (by omega)
      refine ⟨{ v with array_ := a1, size_ := n }, ?_, ⟨c2, ?_⟩, rfl, ?_, ?_⟩
      · simp [Resize, c1, c2, hf]
      · show a1.raw_ptr_.length = v.capacity_
        omega
      · simp [c2]
      · intro j hj
        show a1.raw_ptr_[j]? = _
        rw [hg1 j]
        by_cases c3 : j < v.size_
        · have : ¬ (v.size_ ≤ j ∧ j < n) := by omega
          simp [c3, this]
        · have : v.size_ ≤ j ∧ j < n := by omega
          simp [c3, this]
    · obtain ⟨old, t1, hm, hl1, hg1⟩ := moveCopy_spec E v.array_ 0 v.size_ (ArrayPtr.alloc E n) 0
        (by omega) (by omega) (by rw [alloc_length]; omega)
      rw [alloc_length] at hl1
      obtain ⟨t2, hf, hl2, hg2⟩ := Fill_spec t1 v.size_ n (by omega) (by omega)
      refine ⟨{ size_ := n, capacity_ := n, array_ := t2 }, ?_, ⟨Nat.le_refl n, ?_⟩, rfl, ?_, ?_⟩
      · simp [Resize, c1, c2, hm, hf, ArrayPtr.swap]
      · show t2.raw_ptr_.length = n
        omega
      · simp [c2]
      · intro j hj
        show t2.raw_ptr_[j]? = _
        rw [hg2 j, hg1 j]
        by_cases c3 : j < v.size_
        · have e1 : ¬ (v.size_ ≤ j ∧ j < n) := by omega
          have e2 : 0 ≤ j ∧ j < 0 + (v.size_ - 0) := by omega
          simp [c3, e1, e2]
        · have e1 : v.size_ ≤ j ∧ j < n := by omega
          simp [c3, e1]

/-- The growth step shared by `PushBack` and `PreInsert`: `Resize(2 * capacity_ + 1)` when the
vector is full, nothing otherwise.  Afterwards there is room for one more element and the slots
below the old size are unchanged. -/
theorem grow_spec [Inhabited T] (E : ElemOps T) (v : SimpleVector T) (h : Wf v) :
    ∃ v1, (if v.size_ = v.capacity_ then Resize E (2 * v.capacity_ + 1) v else some v) = some v1 ∧
      v1.array_.raw_ptr_.length = v1.capacity_ ∧ v.size_ < v1.capacity_ ∧
      v1.capacity_ = (if v.size_ = v.capacity_ then 2 * v.capacity_ + 1 else v.capacity_) ∧
      ∀ j, j < v.size_ → v1.array_.raw_ptr_[j]? = v.array_.raw_ptr_[j]? := by
  by_cases c : v.size_ = v.capacity_
  · obtain ⟨w, hr, hw, _, hcap, hg⟩ := Resize_spec E (2 * v.capacity_ + 1) v h
    have hn : ¬ (2 * v.capacity_ + 1 ≤ v.capacity_) := by omega
    rw [if_neg hn] at hcap
    refine ⟨w, ?_, hw.2, by omega, ?_, ?_⟩
    · simp [c, hr]
    · simp [c, hcap]
    · intro j hj
      rw [hg j (by omega)]
      simp [hj]
  · have := h.1
    refine ⟨v, by simp [c], h.2, by omega, by simp [c], fun _ _ => rfl⟩

/-- Operation `PushBack` on a well-formed vector. -/
theorem PushBack_spec [Inhabited T] (E : ElemOps T) (ov : Overload) (x : T)
    (v : SimpleVector T) (h : Wf v) :
    ∃ w, PushBack E ov (ItemRef.outside x) v = some w ∧ Wf w ∧ w.size_ = v.size_ + 1 ∧
      w.capacity_ = (if v.size_ = v.capacity_ then 2 * v.capacity_ + 1 else v.capacity_) ∧
      ∀ j, j ≤ v.size_ → w.array_.raw_ptr_[j]? =
        if j < v.size_ then v.array_.raw_ptr_[j]? else some x := by
  obtain ⟨v1, hg, hl, hroom, hcap, hkeep⟩ := grow_spec E v h
  have hin : v.size_ < v1.array_.raw_ptr_.length := by omega
  refine ⟨{ v1 with array_ := ⟨v1.array_.raw_ptr_.set v.size_ x⟩, size_ := v.size_ + 1 },
    ?_, ⟨?_, ?_⟩, rfl, hcap, ?_⟩
  · simp only [PushBack, hg, assignItem_outside, store_of_lt x hin]
  · show v.size_ + 1 ≤ v1.capacity_
    omega
  · show (v1.array_.raw_ptr_.set v.size_ x).length = v1.capacity_
    simpa using hl
  · intro j hj
    show (v1.array_.raw_ptr_.set v.size_ x)[j]? = _
    rw [List.getElem?_set]
    by_cases c : j < v.size_
    · have : v.size_ ≠ j := by omega
      simp [c, this, hkeep j c]
    · have : v.size_ = j := by omega
      subst this
      simp [hin]

/-- Operation `Insert` at an offset in `[0, size_]` of a well-formed vector. -/
theorem Insert_spec [Inhabited T] (E : ElemOps T) (ov : Overload) (n : Nat) (x : T)
    (v : SimpleVector T)
    (h : Wf v) (hn : n ≤ v.size_) :
    ∃ w, Insert E ov n (ItemRef.outside x) v = some (w, n) ∧ Wf w ∧ w.size_ = v.size_ + 1 ∧
      w.capacity_ = (if v.size_ = v.capacity_ then 2 * v.capacity_ + 1 else v.capacity_) ∧
      ∀ j, j ≤ v.size_ → w.array_.raw_ptr_[j]? =
        if j < n then v.array_.raw_ptr_[j]? else if j = n then some x
        else v.array_.raw_ptr_[j - 1]? := by
  obtain ⟨v1, hg, hl, hroom, hcap, hkeep⟩ := grow_spec E v h
  obtain ⟨a1, hloop, hl1, hg1⟩ := PreInsertLoop_spec E n v.size_ v1.array_ hn (by omega)
  have hin : n < a1.raw_ptr_.length := by omega
  refine ⟨{ v1 with array_ := ⟨a1.raw_ptr_.set n x⟩, size_ := v.size_ + 1 },
    ?_, ⟨?_, ?_⟩, rfl, hcap, ?_⟩
  · simp only [Insert, PreInsert, hg, hloop, assignItem_outside, store_of_lt x hin]
  · show v.size_ + 1 ≤ v1.capacity_
    omega
  · show (a1.raw_ptr_.set n x).length = v1.capacity_
    simp; omega
  · intro j hj
    show (a1.raw_ptr_.set n x)[j]? = _
    rw [List.getElem?_set]
    by_cases c : n = j
    · subst c
      simp [hin]
    · rw [if_neg c, hg1 j (by omega)]
      by_cases c2 : j < n
      · have e : ¬ (n < j ∧ j ≤ v.size_) := by omega
        rw [if_neg e, if_pos c2, hkeep j (by omega)]
      · have e : n < j ∧ j ≤ v.size_ := by omega
        have e2 : ¬ j = n := by omega
        rw [if_pos e, if_neg c2, if_neg e2, hkeep (j - 1) (by omega)]

/-- Operation `Erase` at the offset of an element of a well-formed vector. -/
theorem Erase_spec (E : ElemOps T) (n : Nat) (v : SimpleVector T)
    (h : Wf v) (hn : n < v.size_) :
    ∃ w, Erase E n v = some (w, n) ∧ Wf w ∧ w.size_ + 1 = v.size_ ∧
      w.capacity_ = v.capacity_ ∧
      ∀ j, j + 1 < v.size_ → w.array_.raw_ptr_[j]? =
        if j < n then v.array_.raw_ptr_[j]? else v.array_.raw_ptr_[j + 1]? := by
  obtain ⟨hsc, hlen⟩ := h
  obtain ⟨a1, hloop, hl1, hg1⟩ := EraseLoop_spec E v.array_ n (v.size_ - 1) (by omega) (by omega)
  have hne : v.size_ ≠ 0 := by omega
  refine ⟨{ v with array_ := a1, size_ := v.size_ - 1 }, ?_, ⟨?_, ?_⟩, ?_, rfl, ?_⟩
  · simp only [Erase, hne, if_false, hloop]
  · show v.size_ - 1 ≤ v.capacity_
    omega
  · show a1.raw_ptr_.length = v.capacity_
    omega
  · show v.size_ - 1 + 1 = v.size_
    omega
  · intro j hj
    show a1.raw_ptr_[j]? = _
    rw [hg1 j (by omega)]
    by_cases c : j < n
    · have e : ¬ (n ≤ j ∧ j < v.size_ - 1) := by omega
      rw [if_neg e, if_pos c]
    · have e : n ≤ j ∧ j < v.size_ - 1 := by omega
      rw [if_pos e, if_neg c]

theorem index_eq (v : SimpleVector T) (i : Nat) :
    index v i = if i < v.size_ then v.array_.raw_ptr_[i]? else none := rfl

theorem capSeq_lt_succ (k : Nat) : capSeq k < capSeq (k + 1) := by
  show capSeq k < 2 * capSeq k + 1
  omega

theorem capSeq_mono {j k : Nat} (h : j ≤ k) : capSeq j ≤ capSeq k := by
  induction h with
  | refl => exact Nat.le_refl _
  | step _ ih => exact Nat.le_trans ih (Nat.le_of_lt (capSeq_lt_succ _))

theorem capSeq_lt_imp {j k : Nat} (h : capSeq k < capSeq j) : capSeq (k + 1) ≤ capSeq j := by
  apply capSeq_mono
  by_contra hc
  have := capSeq_mono (show j ≤ k by omega)
  omega

theorem PushBack_LeastCap [Inhabited T] (E : ElemOps T) (ov : Overload) (x : T)
    (v w : SimpleVector T) (h : Wf v) (hl : LeastCap v)
    (hp : PushBack E ov (ItemRef.outside x) v = some w) : LeastCap w := by
  obtain ⟨w1, hw, _, hsz, hcap, _⟩ := PushBack_spec E ov x v h
  rw [hp] at hw
  cases hw
  obtain ⟨k, hk, hle, hmin⟩ := hl
  by_cases c : v.size_ = v.capacity_
  · rw [if_pos c] at hcap
    refine ⟨k + 1, ?_, ?_, ?_⟩
    · rw [hcap, hk]; rfl
    · show w.size_ ≤ 2 * capSeq k + 1
      omega
    · intro j hj
      apply capSeq_lt_imp
      omega
  · rw [if_neg c] at hcap
    have := h.1
    refine ⟨k, by omega, by omega, ?_⟩
    intro j hj
    exact hmin j (by omega)

theorem pushAll_spec [Inhabited T] (E : ElemOps T) (ov : Overload) (xs : List T)
    (v : SimpleVector T)
    (h : Wf v) (hl : LeastCap v) :
    ∃ w, pushAll E ov xs v = some w ∧ Wf w ∧ w.size_ = v.size_ + xs.length ∧ LeastCap w := by
  induction xs generalizing v with
  | nil => exact ⟨v, rfl, h, rfl, hl⟩
  | cons x xs ih =>
    obtain ⟨v1, hp, hw1, hs1, _, _⟩ := PushBack_spec E ov x v h
    obtain ⟨w, hw, hwf, hsz, hlc⟩ := ih v1 hw1 (PushBack_LeastCap E ov x v v1 h hl hp)
    refine ⟨w, ?_, hwf, ?_, hlc⟩
    · simp only [pushAll, hp, hw]
    · rw [hsz, hs1, List.length_cons]; omega

theorem toList_PushBack (x : T) (v w : SimpleVector T) (h : Wf v)
    (hsz : w.size_ = v.size_ + 1)
    (hg : ∀ j, j ≤ v.size_ → w.array_.raw_ptr_[j]? =
      if j < v.size_ then v.array_.raw_ptr_[j]? else some x) :
    w.toList = v.toList ++ [x] := by
  apply List.ext_getElem?
  intro j
  rw [toList_getElem?, List.getElem?_append, toList_length h, toList_getElem?, hsz]
  by_cases c1 : j < v.size_
  · have : j < v.size_ + 1 := by omega
    rw [if_pos this, if_pos c1, if_pos c1, hg j (by omega), if_pos c1]
  · by_cases c2 : j = v.size_
    · subst c2
      rw [if_pos (by omega), if_neg c1, hg _ (Nat.le_refl _), if_neg c1]
      simp
    · have e1 : ¬ j < v.size_ + 1 := by omega
      rw [if_neg e1, if_neg c1]
      symm
      apply List.getElem?_eq_none
      simp; omega

theorem toList_Insert (n : Nat) (x : T) (v w : SimpleVector T) (h : Wf v)
    (hn : n ≤ v.size_) (hsz : w.size_ = v.size_ + 1)
    (hg : ∀ j, j ≤ v.size_ → w.array_.raw_ptr_[j]? =
        if j < n then v.array_.raw_ptr_[j]? else if j = n then some x
        else v.array_.raw_ptr_[j - 1]?) :
    w.toList = v.toList.take n ++ [x] ++ v.toList.drop n := by
  have hlen := toList_length h
  apply List.ext_getElem?
  intro j
  have hl1 : (v.toList.take n ++ [x]).length = n + 1 := by
    simp [hlen]; omega
  have hl2 : (v.toList.take n).length = n := by
    simp [hlen]; omega
  rw [toList_getElem?, hsz, List.getElem?_append, hl1]
  by_cases c1 : j < n
  · rw [if_pos (by omega), hg j (by omega), if_pos c1, if_pos (by omega),
      List.getElem?_append_left (by omega), List.getElem?_take_of_lt c1, toList_getElem?,
      if_pos (by omega)]
  · by_cases c2 : j = n
    · subst c2
      rw [if_pos (by omega), hg j hn, if_neg c1, if_pos rfl, if_pos (by omega),
        List.getElem?_append_right (by omega), hl2]
      simp
    · have e0 : ¬ j < n + 1 := by omega
      have e : n + (j - (n + 1)) = j - 1 := by omega
      by_cases c3 : j < v.size_ + 1
      · have e1 : j - 1 < v.size_ := by omega
        rw [if_pos c3, hg j (by omega), if_neg c1, if_neg c2, if_neg e0, List.getElem?_drop,
          toList_getElem?, e, if_pos e1]
      · have e1 : ¬ j - 1 < v.size_ := by omega
        rw [if_neg c3, if_neg e0, List.getElem?_drop, toList_getElem?, e, if_neg e1]

theorem toList_Erase (n : Nat) (v w : SimpleVector T) (h : Wf v)
    (hn : n < v.size_) (hsz : w.size_ + 1 = v.size_)
    (hg : ∀ j, j + 1 < v.size_ → w.array_.raw_ptr_[j]? =
        if j < n then v.array_.raw_ptr_[j]? else v.array_.raw_ptr_[j + 1]?) :
    w.toList = v.toList.take n ++ v.toList.drop (n + 1) := by
  have hlen := toList_length h
  apply List.ext_getElem?
  intro j
  have hl2 : (v.toList.take n).length = n := by
    simp [hlen]; omega
  rw [toList_getElem?, List.getElem?_append, hl2]
  by_cases c1 : j < n
  · rw [if_pos (by omega), hg j (by omega), if_pos c1, if_pos c1,
      List.getElem?_take_of_lt c1, toList_getElem?, if_pos (by omega)]
  · rw [if_neg c1, List.getElem?_drop, toList_getElem?]
    have e : n + 1 + (j - n) = j + 1 := by omega
    rw [e]
    by_cases c3 : j < w.size_
    · have e1 : j + 1 < v.size_ := by omega
      rw [if_pos c3, hg j (by omega), if_neg c1, if_pos e1]
    · have e1 : ¬ j + 1 < v.size_ := by omega
      rw [if_neg c3, if_neg e1]

/-! ## Equality -/

/-- C1 (the code departs from the claim): `operator==` hands only `lhs.end()` to `std::equal`
and never looks at `rhs.size_`.  On the vectors built from `{1, 2}` and `{1, 2, 3}` it returns
`true` although the sizes are 2 and 3, so equal size is not necessary for `==` to hold. -/
theorem operator_eq_true_on_different_sizes :
    ofInitList natOps [1, 2] = some ⟨2, 2, ⟨[1, 2]⟩⟩ ∧
    ofInitList natOps [1, 2, 3] = some ⟨3, 3, ⟨[1, 2, 3]⟩⟩ ∧
    operator_eq (⟨2, 2, ⟨[1, 2]⟩⟩ : SimpleVector Nat) ⟨3, 3, ⟨[1, 2, 3]⟩⟩ = some true ∧
    GetSize (⟨2, 2, ⟨[1, 2]⟩⟩ : SimpleVector Nat) ≠ GetSize (⟨3, 3, ⟨[1, 2, 3]⟩⟩ : SimpleVector Nat) := by
  refine ⟨by decide, by decide, ?_, by decide⟩
  simp [operator_eq, stdEqual, ArrayPtr.load]

/-! ## PushBack -/

/-- For an argument that lives outside the buffer, `PushBack(x)` on a vector with element
sequence `s` returns a vector with element sequence `s ++ [x]`: the size grows by one, the
element at the old index `size` is `x` and every element below the old size is unchanged,
whether or not the push reallocates. -/
theorem PushBack_outside_appends [Inhabited T] (E : ElemOps T) (ov : Overload) (x : T)
    (v : SimpleVector T) (h : Wf v) :
    ∃ w, PushBack E ov (ItemRef.outside x) v = some w ∧ w.toList = v.toList ++ [x] ∧
      GetSize w = GetSize v + 1 ∧
      index w (GetSize v) = some x ∧ ∀ i, i < GetSize v → index w i = index v i := by
  obtain ⟨w, hp, _, hsz, _, hg⟩ := PushBack_spec E ov x v h
  refine ⟨w, hp, toList_PushBack x v w h hsz hg, hsz, ?_, ?_⟩
  · show index w v.size_ = some x
    rw [index_eq, if_pos (by omega), hg _ (Nat.le_refl _), if_neg (Nat.lt_irrefl _)]
  · intro i hi
    have hi1 : i < v.size_ := hi
    rw [index_eq, index_eq, if_pos (by omega), if_pos hi1, hg i (by omega), if_pos hi1]

/-- C3 (the code departs from the claim): `PushBack` reads its reference argument only after the
growth step.  On the full vector that holds the single element `7`, `v.PushBack(v[0])`
reallocates, releases the block `v[0]` refers to and then reads it, for either overload: the
call has no defined result, where the claim requires the sequence `7, 7`.  The same value passed
from outside the buffer gives `7, 7`, and a push of `v[0]` that does not reallocate appends the
element. -/
theorem PushBack_reads_released_item :
    Wf sampleFull ∧ index sampleFull 0 = some 7 ∧
    PushBack natOps Overload.copy (ItemRef.slot 0) sampleFull = none ∧
    PushBack natOps Overload.move (ItemRef.slot 0) sampleFull = none ∧
    PushBack natOps Overload.copy (ItemRef.outside 7) sampleFull = some ⟨2, 3, ⟨[7, 7, 0]⟩⟩ ∧
    PushBack natOps Overload.copy (ItemRef.slot 0) sampleSpare = some ⟨3, 3, ⟨[4, 5, 4]⟩⟩ := by
  refine ⟨by decide, by decide, ?_, ?_, ?_, ?_⟩
  · simp [PushBack, sampleFull, Resize, moveCopy, Fill, ArrayPtr.alloc, ArrayPtr.load,
      ArrayPtr.store, ArrayPtr.swap, assignItem, growReleases, natOps]
  · simp [PushBack, sampleFull, Resize, moveCopy, Fill, ArrayPtr.alloc, ArrayPtr.load,
      ArrayPtr.store, ArrayPtr.swap, assignItem, growReleases, natOps]
  · simp [PushBack, sampleFull, Resize, moveCopy, Fill, ArrayPtr.alloc, ArrayPtr.load,
      ArrayPtr.store, ArrayPtr.swap, assignItem, growReleases, natOps, List.range,
      List.range.loop]
  · simp [PushBack, sampleSpare, ArrayPtr.load, ArrayPtr.store, assignItem, growReleases]

/-! ## Insert and Erase -/

/-- For an argument that lives outside the buffer and `n ≤ size`, `Insert(begin() + n, x)` on a
vector with element sequence `s` returns a vector with element sequence
`s[0..n) ++ [x] ++ s[n..size)`, the size grows by one, and the returned iterator is the position
of index `n`, which holds `x`. -/
theorem Insert_outside_sequence [Inhabited T] (E : ElemOps T) (ov : Overload) (n : Nat) (x : T)
    (v : SimpleVector T) (h : Wf v) (hn : n ≤ GetSize v) :
    ∃ w, Insert E ov n (ItemRef.outside x) v = some (w, w.begin + n) ∧
      w.toList = v.toList.take n ++ [x] ++ v.toList.drop n ∧
      GetSize w = GetSize v + 1 ∧ index w n = some x := by
  obtain ⟨w, hp, _, hsz, _, hg⟩ := Insert_spec E ov n x v h hn
  refine ⟨w, ?_, toList_Insert n x v w h hn hsz hg, hsz, ?_⟩
  · rw [hp]
    simp [SimpleVector.begin]
  · have hn1 : n ≤ v.size_ := hn
    rw [index_eq, if_pos (by omega), hg n hn1, if_neg (Nat.lt_irrefl _), if_pos rfl]

/-- C4 (the code departs from the claim): `Insert` reads its reference argument only after
`PreInsert` has shifted the elements.  On the vector that holds `4, 5` with capacity 3,
`v.Insert(v.begin(), v[1])` is called with the value `5`, but the shift has put `4` into slot 1
by the time it is read: the result is `4, 4, 5` and the returned position holds `4`, where the
claim requires `5, 4, 5` and `5`.  The same value passed from outside the buffer gives
`5, 4, 5`.  On a full vector the argument is read after its block has been released. -/
theorem Insert_reads_item_after_shift :
    Wf sampleSpare ∧ 0 ≤ GetSize sampleSpare ∧ index sampleSpare 1 = some 5 ∧
    Insert natOps Overload.copy 0 (ItemRef.slot 1) sampleSpare =
      some (⟨3, 3, ⟨[4, 4, 5]⟩⟩, 0) ∧
    index (⟨3, 3, ⟨[4, 4, 5]⟩⟩ : SimpleVector Nat) 0 = some 4 ∧
    Insert natOps Overload.copy 0 (ItemRef.outside 5) sampleSpare =
      some (⟨3, 3, ⟨[5, 4, 5]⟩⟩, 0) ∧
    Insert natOps Overload.copy 0 (ItemRef.slot 0) sampleFull = none := by
  refine ⟨by decide, by decide, by decide, ?_, by decide, ?_, ?_⟩
  · simp [Insert, PreInsert, PreInsertLoop, sampleSpare, ArrayPtr.load, ArrayPtr.store,
      assignItem, growReleases, natOps]
  · simp [Insert, PreInsert, PreInsertLoop, sampleSpare, ArrayPtr.load, ArrayPtr.store,
      assignItem, growReleases, natOps]
  · simp [Insert, PreInsert, PreInsertLoop, sampleFull, Resize, moveCopy, Fill, ArrayPtr.alloc,
      ArrayPtr.load, ArrayPtr.store, ArrayPtr.swap, assignItem, growReleases, natOps]

/-- C5: for `n < size`, `Erase(begin() + n)` on a vector with element sequence `s` returns a
vector with element sequence `s[0..n) ++ s[n+1..size)`, the size drops by one, the capacity is
unchanged, and the returned iterator is the position of index `n`, which is the new `end()` when
the erased element was the last one. -/
theorem Erase_sequence (E : ElemOps T) (n : Nat) (v : SimpleVector T)
    (h : Wf v) (hn : n < GetSize v) :
    ∃ w, Erase E n v = some (w, w.begin + n) ∧
      w.toList = v.toList.take n ++ v.toList.drop (n + 1) ∧
      GetSize w + 1 = GetSize v ∧ GetCapacity w = GetCapacity v ∧
      (n + 1 = GetSize v → w.begin + n = w.end_) := by
  obtain ⟨w, hp, _, hsz, hcap, hg⟩ := Erase_spec E n v h hn
  refine ⟨w, ?_, toList_Erase n v w h hn hsz hg, hsz, hcap, ?_⟩
  · rw [hp]
    simp [SimpleVector.begin]
  · intro hlast
    have h1 : n + 1 = v.size_ := hlast
    show 0 + n = w.size_
    omega

theorem Erase_sequence_witness :
    Wf (⟨5, 5, ⟨[1, 2, 3, 4, 5]⟩⟩ : SimpleVector Nat) ∧
    1 < GetSize (⟨5, 5, ⟨[1, 2, 3, 4, 5]⟩⟩ : SimpleVector Nat) ∧
    ∃ w, Erase natOps 1 ⟨5, 5, ⟨[1, 2, 3, 4, 5]⟩⟩ = some (w, w.begin + 1) ∧
      w.toList = (⟨5, 5, ⟨[1, 2, 3, 4, 5]⟩⟩ : SimpleVector Nat).toList.take 1 ++
        (⟨5, 5, ⟨[1, 2, 3, 4, 5]⟩⟩ : SimpleVector Nat).toList.drop (1 + 1) ∧
      GetSize w + 1 = GetSize (⟨5, 5, ⟨[1, 2, 3, 4, 5]⟩⟩ : SimpleVector Nat) ∧
      GetCapacity w = GetCapacity (⟨5, 5, ⟨[1, 2, 3, 4, 5]⟩⟩ : SimpleVector Nat) ∧
      (1 + 1 = GetSize (⟨5, 5, ⟨[1, 2, 3, 4, 5]⟩⟩ : SimpleVector Nat) → w.begin + 1 = w.end_) :=
  ⟨by decide, by decide, Erase_sequence natOps 1 ⟨5, 5, ⟨[1, 2, 3, 4, 5]⟩⟩ (by decide) (by decide)⟩

/-- C7: for `n > capacity`, `Resize(n)` returns a vector whose size and capacity are both exactly
`n`, whose elements at the indices below the old size are the old ones in the same order, and
whose elements at the indices from the old size up to `n` all equal `Type{}`. -/
theorem Resize_beyond_capacity [Inhabited T] (E : ElemOps T) (n : Nat) (v : SimpleVector T)
    (h : Wf v) (hn : GetCapacity v < n) :
    ∃ w, Resize E n v = some w ∧ GetSize w = n ∧ GetCapacity w = n ∧
      (∀ i, i < GetSize v → index w i = index v i) ∧
      (∀ i, GetSize v ≤ i → i < n → index w i = some default) ∧
      w.toList = v.toList ++ List.replicate (n - GetSize v) default := by
  obtain ⟨w, hr, _, hsz, hcap, hg⟩ := Resize_spec E n v h
  have hn1 : ¬ n ≤ v.capacity_ := Nat.not_le.mpr hn
  have hsc := h.1
  rw [if_neg hn1] at hcap
  refine ⟨w, hr, hsz, hcap, ?_, ?_, ?_⟩
  · intro i hi
    have hi1 : i < v.size_ := hi
    rw [index_eq, index_eq, if_pos (by omega), if_pos hi1, hg i (by omega), if_pos hi1]
  · intro i hi hin
    have hi1 : ¬ i < v.size_ := Nat.not_lt.mpr hi
    rw [index_eq, if_pos (by omega), hg i hin, if_neg hi1]
  · apply List.ext_getElem?
    intro j
    rw [toList_getElem?, List.getElem?_append, toList_length h, toList_getElem?,
      List.getElem?_replicate, hsz]
    show _ = if j < v.size_ then _ else if j - v.size_ < n - v.size_ then _ else _
    by_cases c1 : j < v.size_
    · have e : j < n := by omega
      rw [if_pos e, hg j e, if_pos c1, if_pos c1, if_pos c1]
    · by_cases c2 : j < n
      · have e : j - v.size_ < n - v.size_ := by omega
        rw [if_pos c2, hg j c2, if_neg c1, if_neg c1, if_pos e]
      · have e : ¬ j - v.size_ < n - v.size_ := by omega
        rw [if_neg c2, if_neg c1, if_neg e]

theorem Resize_beyond_capacity_witness :
    Wf (⟨2, 3, ⟨[4, 5, 6]⟩⟩ : SimpleVector Nat) ∧
    GetCapacity (⟨2, 3, ⟨[4, 5, 6]⟩⟩ : SimpleVector Nat) < 5 ∧
    ∃ w, Resize natOps 5 ⟨2, 3, ⟨[4, 5, 6]⟩⟩ = some w ∧ GetSize w = 5 ∧ GetCapacity w = 5 ∧
      (∀ i, i < GetSize (⟨2, 3, ⟨[4, 5, 6]⟩⟩ : SimpleVector Nat) →
        index w i = index (⟨2, 3, ⟨[4, 5, 6]⟩⟩ : SimpleVector Nat) i) ∧
      (∀ i, GetSize (⟨2, 3, ⟨[4, 5, 6]⟩⟩ : SimpleVector Nat) ≤ i → i < 5 →
        index w i = some default) ∧
      w.toList = (⟨2, 3, ⟨[4, 5, 6]⟩⟩ : SimpleVector Nat).toList ++
        List.replicate (5 - GetSize (⟨2, 3, ⟨[4, 5, 6]⟩⟩ : SimpleVector Nat)) default :=
  ⟨by decide, by decide, Resize_beyond_capacity natOps 5 ⟨2, 3, ⟨[4, 5, 6]⟩⟩ (by decide) (by decide)⟩

/-- C8: for `k < size`, `Resize(k)` followed by `Resize(size)` returns a vector with the original
size and capacity, the original elements at the indices below `k`, and `Type{}` at every index
from `k` up to the size. -/
theorem Resize_shrink_regrow [Inhabited T] (E : ElemOps T) (k : Nat) (v : SimpleVector T)
    (h : Wf v) (hk : k < GetSize v) :
    ∃ u w, Resize E k v = some u ∧ Resize E (GetSize v) u = some w ∧
      GetSize w = GetSize v ∧ GetCapacity w = GetCapacity v ∧
      (∀ i, i < k → index w i = index v i) ∧
      (∀ i, k ≤ i → i < GetSize v → index w i = some default) := by
  have hk1 : k < v.size_ := hk
  have hsc := h.1
  obtain ⟨u, hr, hwf, hsz, hcap, hg⟩ := Resize_spec E k v h
  rw [if_pos (by omega)] at hcap
  obtain ⟨w, hr2, _, hsz2, hcap2, hg2⟩ := Resize_spec E v.size_ u hwf
  rw [if_pos (by omega)] at hcap2
  refine ⟨u, w, hr, hr2, hsz2, by show w.capacity_ = v.capacity_; omega, ?_, ?_⟩
  · intro i hi
    have e1 : i < v.size_ := by omega
    have e2 : i < u.size_ := by omega
    rw [index_eq, index_eq, if_pos (by omega), if_pos e1, hg2 i e1, if_pos e2, hg i hi, if_pos e1]
  · intro i hi hin
    have e1 : i < v.size_ := hin
    have e2 : ¬ i < u.size_ := by omega
    rw [index_eq, if_pos (by omega), hg2 i e1, if_neg e2]

theorem Resize_shrink_regrow_witness :
    Wf (⟨3, 3, ⟨[1, 2, 3]⟩⟩ : SimpleVector Nat) ∧
    2 < GetSize (⟨3, 3, ⟨[1, 2, 3]⟩⟩ : SimpleVector Nat) ∧
    ∃ u w, Resize natOps 2 ⟨3, 3, ⟨[1, 2, 3]⟩⟩ = some u ∧
      Resize natOps (GetSize (⟨3, 3, ⟨[1, 2, 3]⟩⟩ : SimpleVector Nat)) u = some w ∧
      GetSize w = GetSize (⟨3, 3, ⟨[1, 2, 3]⟩⟩ : SimpleVector Nat) ∧
      GetCapacity w = GetCapacity (⟨3, 3, ⟨[1, 2, 3]⟩⟩ : SimpleVector Nat) ∧
      (∀ i, i < 2 → index w i = index (⟨3, 3, ⟨[1, 2, 3]⟩⟩ : SimpleVector Nat) i) ∧
      (∀ i, 2 ≤ i → i < GetSize (⟨3, 3, ⟨[1, 2, 3]⟩⟩ : SimpleVector Nat) →
        index w i = some default) :=
  ⟨by decide, by decide, Resize_shrink_regrow natOps 2 ⟨3, 3, ⟨[1, 2, 3]⟩⟩ (by decide) (by decide)⟩

/-- C9: for `n ≤ size`, `Resize(n)` returns the vector with `size_` set to `n` and with the same
capacity and the same buffer, slot for slot, the slots at offsets `≥ n` included. -/
theorem Resize_truncate [Inhabited T] (E : ElemOps T) (n : Nat) (v : SimpleVector T)
    (hn : n ≤ GetSize v) :
    Resize E n v = some { size_ := n, capacity_ := v.capacity_, array_ := v.array_ } := by
  have hn1 : n ≤ v.size_ := hn
  simp [Resize, hn1]

theorem Resize_truncate_witness :
    2 ≤ GetSize (⟨3, 3, ⟨[1, 2, 3]⟩⟩ : SimpleVector Nat) ∧
    Resize natOps 2 (⟨3, 3, ⟨[1, 2, 3]⟩⟩ : SimpleVector Nat) =
      some { size_ := 2, capacity_ := (⟨3, 3, ⟨[1, 2, 3]⟩⟩ : SimpleVector Nat).capacity_,
             array_ := (⟨3, 3, ⟨[1, 2, 3]⟩⟩ : SimpleVector Nat).array_ } :=
  ⟨by decide, Resize_truncate natOps 2 ⟨3, 3, ⟨[1, 2, 3]⟩⟩ (by decide)⟩

/-- C10: `Reserve(n)` returns a vector with the same size and the same element at every index
below the size; the capacity is unchanged when `n ≤ capacity` and exactly `n` when
`n > capacity`. -/
theorem Reserve_keeps_elements [Inhabited T] (E : ElemOps T) (n : Nat) (v : SimpleVector T)
    (h : Wf v) :
    ∃ w, Reserve E n v = some w ∧ GetSize w = GetSize v ∧
      (∀ i, i < GetSize v → index w i = index v i) ∧ w.toList = v.toList ∧
      (n ≤ GetCapacity v → GetCapacity w = GetCapacity v) ∧
      (GetCapacity v < n → GetCapacity w = n) := by
  have hsc := h.1
  by_cases c : n > v.capacity_
  · obtain ⟨w, hr, _, _, hcap, hg⟩ := Resize_spec E n v h
    have hn1 : ¬ n ≤ v.capacity_ := by omega
    rw [if_neg hn1] at hcap
    have hidx : ∀ i, i < v.size_ → w.array_.raw_ptr_[i]? = v.array_.raw_ptr_[i]? := by
      intro i hi
      rw [hg i (by omega), if_pos hi]
    refine ⟨{ w with size_ := v.size_ }, ?_, rfl, ?_, ?_, ?_, ?_⟩
    · simp [Reserve, c, hr]
    · intro i hi
      have hi1 : i < v.size_ := hi
      rw [index_eq, index_eq]
      show (if i < v.size_ then w.array_.raw_ptr_[i]? else none) = _
      rw [if_pos hi1, if_pos hi1, hidx i hi1]
    · apply List.ext_getElem?
      intro j
      rw [toList_getElem?, toList_getElem?]
      show (if j < v.size_ then w.array_.raw_ptr_[j]? else none) = _
      by_cases cj : j < v.size_
      · rw [if_pos cj, if_pos cj, hidx j cj]
      · rw [if_neg cj, if_neg cj]
    · intro hle
      have : n ≤ v.capacity_ := hle
      omega
    · intro _
      exact hcap
  · refine ⟨v, ?_, rfl, fun _ _ => rfl, rfl, fun _ => rfl, ?_⟩
    · simp [Reserve, c]
    · intro hlt
      have : v.capacity_ < n := hlt
      omega

theorem Reserve_keeps_elements_witness :
    Wf (⟨2, 3, ⟨[4, 5, 6]⟩⟩ : SimpleVector Nat) ∧
    ∃ w, Reserve natOps 10 ⟨2, 3, ⟨[4, 5, 6]⟩⟩ = some w ∧
      GetSize w = GetSize (⟨2, 3, ⟨[4, 5, 6]⟩⟩ : SimpleVector Nat) ∧
      (∀ i, i < GetSize (⟨2, 3, ⟨[4, 5, 6]⟩⟩ : SimpleVector Nat) →
        index w i = index (⟨2, 3, ⟨[4, 5, 6]⟩⟩ : SimpleVector Nat) i) ∧
      w.toList = (⟨2, 3, ⟨[4, 5, 6]⟩⟩ : SimpleVector Nat).toList ∧
      (10 ≤ GetCapacity (⟨2, 3, ⟨[4, 5, 6]⟩⟩ : SimpleVector Nat) →
        GetCapacity w = GetCapacity (⟨2, 3, ⟨[4, 5, 6]⟩⟩ : SimpleVector Nat)) ∧
      (GetCapacity (⟨2, 3, ⟨[4, 5, 6]⟩⟩ : SimpleVector Nat) < 10 → GetCapacity w = 10) :=
  ⟨by decide, Reserve_keeps_elements natOps 10 ⟨2, 3, ⟨[4, 5, 6]⟩⟩ (by decide)⟩

/-! ## The loops of the constructors and of the ordering -/

/-- The copy of `[first, last)` inside the source block into a large enough destination
succeeds; destination slot `d + t` receives source slot `first + t`, the other destination slots
are untouched. -/
theorem stdCopy_spec (src : ArrayPtr T) (first last : Nat) (dst : ArrayPtr T)
    (d : Nat) (h1 : first ≤ last) (h2 : last ≤ src.raw_ptr_.length)
    (h3 : d + (last - first) ≤ dst.raw_ptr_.length) :
    ∃ dst1, stdCopy src first last dst d = some dst1 ∧
      dst1.raw_ptr_.length = dst.raw_ptr_.length ∧
      ∀ j, dst1.raw_ptr_[j]? =
        if d ≤ j ∧ j < d + (last - first) then src.raw_ptr_[first + (j - d)]?
        else dst.raw_ptr_[j]? := by
  obtain ⟨c, hc⟩ : ∃ c, last - first = c := ⟨_, rfl⟩
  induction c generalizing first dst d with
  | zero =>
    have hs : first = last := by omega
    subst hs
    refine ⟨dst, ?_, rfl, ?_⟩
    · rw [stdCopy]; simp
    · intro j
      have : ¬ (d ≤ j ∧ j < d + (first - first)) := by omega
      rw [if_neg this]
  | succ c ih =>
    have hlt : first < last := by omega
    have hin : first < src.raw_ptr_.length := by omega
    have hdin : d < dst.raw_ptr_.length := by omega
    obtain ⟨dst1, hm, hlen, hget⟩ :=
      ih (first + 1) ⟨dst.raw_ptr_.set d src.raw_ptr_[first]⟩ (d + 1)
        (by omega) (by simp; omega) (by omega)
    refine ⟨dst1, ?_, ?_, ?_⟩
    · rw [stdCopy]
      simp only [Nat.ne_of_lt hlt, hlt, if_true, if_false, load_of_lt hin, store_of_lt _ hdin]
      exact hm
    · simpa using hlen
    · intro j
      rw [hget j]
      simp only [List.getElem?_set]
      by_cases hj : d = j
      · subst hj
        have e1 : ¬ (d + 1 ≤ d ∧ d < d + 1 + (last - (first + 1))) := by omega
        have e2 : d ≤ d ∧ d < d + (last - first) := by omega
        simp [e1, e2, hdin, List.getElem?_eq_getElem hin]
      · by_cases hj2 : d + 1 ≤ j ∧ j < d + 1 + (last - (first + 1))
        · have e2 : d ≤ j ∧ j < d + (last - first) := by omega
          have e3 : first + 1 + (j - (d + 1)) = first + (j - d) := by omega
          simp only [hj2, e2, and_self, if_true, e3]
        · have e2 : ¬ (d ≤ j ∧ j < d + (last - first)) := by omega
          simp [hj2, e2, hj]

/-- Inside the block `std::fill_n` succeeds and keeps the length of the block. -/
theorem fill_n_spec (value : T) (count : Nat) (a : ArrayPtr T) (first : Nat)
    (h : first + count ≤ a.raw_ptr_.length) :
    ∃ a1, fill_n value count a first = some a1 ∧ a1.raw_ptr_.length = a.raw_ptr_.length ∧
      ∀ j, a1.raw_ptr_[j]? =
        if first ≤ j ∧ j < first + count then some value else a.raw_ptr_[j]? := by
  induction count generalizing a first with
  | zero =>
    refine ⟨a, rfl, rfl, ?_⟩
    intro j
    have : ¬ (first ≤ j ∧ j < first + 0) := by omega
    rw [if_neg this]
  | succ c ih =>
    have hin : first < a.raw_ptr_.length := by omega
    obtain ⟨a1, hf, hlen, hget⟩ := ih ⟨a.raw_ptr_.set first value⟩ (first + 1)
      (by simp; omega)
    refine ⟨a1, ?_, ?_, ?_⟩
    · simp only [fill_n, store_of_lt _ hin]
      exact hf
    · simpa using hlen
    · intro j
      rw [hget j]
      simp only [List.getElem?_set]
      by_cases hj : first = j
      · subst hj
        have e1 : ¬ (first + 1 ≤ first ∧ first < first + 1 + c) := by omega
        have e2 : first ≤ first ∧ first < first + (c + 1) := by omega
        simp [e1, e2, hin]
      · by_cases hj2 : first + 1 ≤ j ∧ j < first + 1 + c
        · have e2 : first ≤ j ∧ j < first + (c + 1) := by omega
          simp only [hj2, e2, and_self, if_true]
        · have e2 : ¬ (first ≤ j ∧ j < first + (c + 1)) := by omega
          simp [hj2, e2, hj]

/-- Inside the block the copy from an initializer list succeeds, keeps the length of the block
and writes the list at the offsets from `d` on. -/
theorem copyInit_spec (init : List T) (dst : ArrayPtr T) (d : Nat)
    (h : d + init.length ≤ dst.raw_ptr_.length) :
    ∃ a1, copyInit init dst d = some a1 ∧ a1.raw_ptr_.length = dst.raw_ptr_.length ∧
      ∀ j, a1.raw_ptr_[j]? =
        if d ≤ j ∧ j < d + init.length then init[j - d]? else dst.raw_ptr_[j]? := by
  induction init generalizing dst d with
  | nil =>
    refine ⟨dst, rfl, rfl, ?_⟩
    intro j
    have : ¬ (d ≤ j ∧ j < d + ([] : List T).length) := by simp
    rw [if_neg this]
  | cons x xs ih =>
    have hl : (x :: xs).length = xs.length + 1 := rfl
    have hin : d < dst.raw_ptr_.length := by omega
    obtain ⟨a1, hf, hlen, hget⟩ := ih ⟨dst.raw_ptr_.set d x⟩ (d + 1) (by simp; omega)
    refine ⟨a1, ?_, ?_, ?_⟩
    · simp only [copyInit, store_of_lt _ hin]
      exact hf
    · simpa using hlen
    · intro j
      rw [hget j, hl]
      simp only [List.getElem?_set]
      by_cases hj : d = j
      · subst hj
        have e1 : ¬ (d + 1 ≤ d ∧ d < d + 1 + xs.length) := by omega
        have e2 : d ≤ d ∧ d < d + (xs.length + 1) := by omega
        simp [e1, e2, hin]
      · by_cases hj2 : d + 1 ≤ j ∧ j < d + 1 + xs.length
        · have e2 : d ≤ j ∧ j < d + (xs.length + 1) := by omega
          have e3 : j - d = (j - (d + 1)) + 1 := by omega
          rw [if_pos hj2, if_pos e2, e3, List.getElem?_cons_succ]
        · have e2 : ¬ (d ≤ j ∧ j < d + (xs.length + 1)) := by omega
          simp [hj2, e2, hj]

theorem drop_take_cons (l : List T) (f e : Nat) (h1 : f < e) (h2 : e ≤ l.length) :
    (l.drop f).take (e - f) = l[f] :: (l.drop (f + 1)).take (e - (f + 1)) := by
  have hf : f < l.length := by omega
  have e1 : e - f = (e - (f + 1)) + 1 := by omega
  rw [List.drop_eq_getElem_cons hf, e1, List.take_succ_cons]

theorem drop_take_nil (l : List T) (f : Nat) : (l.drop f).take (f - f) = [] := by
  simp

/-- Inside the blocks `std::lexicographical_compare` returns, and its result is the
lexicographic comparison of the two ranges as the spec words it. -/
theorem lexicographical_compare_spec [LinearOrder T] (a : ArrayPtr T) (first1 last1 : Nat)
    (b : ArrayPtr T) (first2 last2 : Nat)
    (h1 : first1 ≤ last1) (h2 : last1 ≤ a.raw_ptr_.length)
    (h3 : first2 ≤ last2) (h4 : last2 ≤ b.raw_ptr_.length) :
    lexicographical_compare a first1 last1 b first2 last2 =
      some (lexLess ((a.raw_ptr_.drop first1).take (last1 - first1))
        ((b.raw_ptr_.drop first2).take (last2 - first2))) := by
  obtain ⟨c, hc⟩ : ∃ c, last1 - first1 = c := ⟨_, rfl⟩
  induction c generalizing first1 first2 with
  | zero =>
    have hs : first1 = last1 := by omega
    subst hs
    rw [lexicographical_compare, drop_take_nil]
    by_cases c2 : first2 = last2
    · subst c2
      simp [lexLess]
    · have hlt : first2 < last2 := by omega
      rw [drop_take_cons _ _ _ hlt h4]
      simp [lexLess, c2]
  | succ c ih =>
    have hlt1 : first1 < last1 := by omega
    have hne1 : first1 ≠ last1 := by omega
    by_cases c2 : first2 = last2
    · subst c2
      rw [lexicographical_compare, drop_take_nil, drop_take_cons _ _ _ hlt1 h2]
      simp [lexLess, hne1]
    · have hlt2 : first2 < last2 := by omega
      have hin1 : first1 < a.raw_ptr_.length := by omega
      have hin2 : first2 < b.raw_ptr_.length := by omega
      have hor : ¬ (first1 = last1 ∨ first2 = last2) := by omega
      rw [lexicographical_compare, if_neg hor, if_pos hlt1, load_of_lt hin1, load_of_lt hin2,
        drop_take_cons _ _ _ hlt1 h2, drop_take_cons _ _ _ hlt2 h4]
      simp only [lexLess]
      by_cases cxy : a.raw_ptr_[first1] < b.raw_ptr_[first2]
      · have hne : a.raw_ptr_[first1] ≠ b.raw_ptr_[first2] := ne_of_lt cxy
        simp [cxy, hne]
      · by_cases cyx : b.raw_ptr_[first2] < a.raw_ptr_[first1]
        · have hne : a.raw_ptr_[first1] ≠ b.raw_ptr_[first2] := (ne_of_lt cyx).symm
          simp [cxy, cyx, hne]
        · have heq : a.raw_ptr_[first1] = b.raw_ptr_[first2] :=
            le_antisymm (not_lt.mp cyx) (not_lt.mp cxy)
          rw [if_neg cxy, if_neg cyx, if_pos heq]
          exact ih (first1 + 1) (first2 + 1) (by omega) (by omega) (by omega)

theorem operator_lt_spec [LinearOrder T] (a b : SimpleVector T) (ha : Wf a) (hb : Wf b) :
    operator_lt a b = some (lexLess a.toList b.toList) := by
  have h := lexicographical_compare_spec a.array_ 0 a.size_ b.array_ 0 b.size_
    (Nat.zero_le _) (by have := ha.1; have := ha.2; omega)
    (Nat.zero_le _) (by have := hb.1; have := hb.2; omega)
  simpa [operator_lt, SimpleVector.toList] using h

theorem index_eq_toList (v : SimpleVector T) (j : Nat) : index v j = v.toList[j]? := by
  rw [index_eq, toList_getElem?]

theorem lexLess_self [LinearOrder T] (l : List T) : lexLess l l = false := by
  induction l with
  | nil => rfl
  | cons x xs ih => simp [lexLess, ih]

theorem lexLess_first_diff [LinearOrder T] (i : Nat) (l1 l2 : List T) (x y : T)
    (h1 : l1[i]? = some x) (h2 : l2[i]? = some y) (hpre : ∀ j, j < i → l1[j]? = l2[j]?)
    (hne : x ≠ y) : lexLess l1 l2 = decide (x < y) := by
  induction i generalizing l1 l2 with
  | zero =>
    cases l1 with
    | nil => simp at h1
    | cons x0 xs =>
      cases l2 with
      | nil => simp at h2
      | cons y0 ys =>
        simp at h1 h2
        subst h1 h2
        simp [lexLess, hne]
  | succ i ih =>
    cases l1 with
    | nil => simp at h1
    | cons x0 xs =>
      cases l2 with
      | nil => simp at h2
      | cons y0 ys =>
        have h0 := hpre 0 (Nat.succ_pos i)
        simp at h0
        subst h0
        simp only [List.getElem?_cons_succ] at h1 h2
        simp only [lexLess, if_true]
        apply ih xs ys h1 h2
        intro j hj
        have := hpre (j + 1) (by omega)
        simpa using this

theorem lexLess_proper_prefix [LinearOrder T] (l1 l2 : List T) (hlen : l1.length < l2.length)
    (hpre : ∀ j, j < l1.length → l1[j]? = l2[j]?) : lexLess l1 l2 = true := by
  induction l1 generalizing l2 with
  | nil =>
    cases l2 with
    | nil => simp at hlen
    | cons y0 ys => rfl
  | cons x0 xs ih =>
    cases l2 with
    | nil => simp at hlen
    | cons y0 ys =>
      have h0 := hpre 0 (by simp)
      simp at h0
      subst h0
      simp only [lexLess, if_true]
      apply ih ys (by simpa using hlen)
      intro j hj
      have := hpre (j + 1) (by simp; omega)
      simpa using this

/-- The spec-worded comparison is the lexicographic order `List.Lex` of the element order. -/
theorem lexLess_iff_Lex [LinearOrder T] (l1 l2 : List T) :
    lexLess l1 l2 = true ↔ List.Lex (fun x y => x < y) l1 l2 := by
  induction l1 generalizing l2 with
  | nil =>
    cases l2 with
    | nil =>
      simp only [lexLess]
      constructor
      · intro h
        cases h
      · intro h
        cases h
    | cons y ys =>
      simp only [lexLess]
      exact ⟨fun _ => List.Lex.nil, fun _ => trivial⟩
  | cons x xs ih =>
    cases l2 with
    | nil =>
      simp only [lexLess]
      constructor
      · intro h
        cases h
      · intro h
        cases h
    | cons y ys =>
      simp only [lexLess]
      by_cases c : x = y
      · subst c
        rw [if_pos rfl, ih ys]
        constructor
        · intro h
          exact List.Lex.cons h
        · intro h
          cases h with
          | cons h => exact h
          | rel h => exact absurd h (lt_irrefl _)
      · rw [if_neg c, decide_eq_true_iff]
        constructor
        · intro h
          exact List.Lex.rel h
        · intro h
          cases h with
          | rel h => exact h
          | cons h => exact absurd rfl c

/-! ## Constructors and assignment on well-formed vectors -/

theorem Inv_iff_Wf (v : SimpleVector T) : Inv v ↔ Wf v := by
  unfold Inv Wf ArrayPtr.toBool
  constructor
  · intro h
    exact ⟨h.2.1, h.1⟩
  · intro h
    refine ⟨h.2, h.1, ?_⟩
    rw [← h.2]
    cases v.array_.raw_ptr_ <;> simp

theorem Wf_empty : Wf (SimpleVector.empty : SimpleVector T) :=
  ⟨Nat.le_refl 0, rfl⟩

theorem ofSizeValue_spec (E : ElemOps T) (size : Nat) (value : T) :
    ∃ w, ofSizeValue E size value = some w ∧ Wf w ∧ w.size_ = size ∧ w.capacity_ = size ∧
      ∀ j, j < size → w.array_.raw_ptr_[j]? = some value := by
  obtain ⟨a, hf, hlen, hget⟩ := fill_n_spec value size (ArrayPtr.alloc E size) 0
    (by rw [alloc_length]; omega)
  rw [alloc_length] at hlen
  refine ⟨{ size_ := size, capacity_ := size, array_ := a }, ?_, ⟨Nat.le_refl _, hlen⟩,
    rfl, rfl, ?_⟩
  · simp only [ofSizeValue, hf]
  · intro j hj
    show a.raw_ptr_[j]? = some value
    have e : 0 ≤ j ∧ j < 0 + size := by omega
    rw [hget j, if_pos e]

theorem ofInitList_spec (E : ElemOps T) (init : List T) :
    ∃ w, ofInitList E init = some w ∧ Wf w ∧ w.size_ = init.length ∧
      w.capacity_ = init.length ∧ w.toList = init := by
  obtain ⟨a, hf, hlen, hget⟩ := copyInit_spec init (ArrayPtr.alloc E init.length) 0
    (by rw [alloc_length]; omega)
  rw [alloc_length] at hlen
  refine ⟨{ size_ := init.length, capacity_ := init.length, array_ := a }, ?_,
    ⟨Nat.le_refl _, hlen⟩, rfl, rfl, ?_⟩
  · simp only [ofInitList, hf]
  · apply List.ext_getElem?
    intro j
    rw [toList_getElem?]
    show (if j < init.length then a.raw_ptr_[j]? else none) = init[j]?
    by_cases c : j < init.length
    · have e : 0 ≤ j ∧ j < 0 + init.length := by omega
      rw [if_pos c, hget j, if_pos e]
      rfl
    · rw [if_neg c]
      symm
      apply List.getElem?_eq_none
      omega

theorem Reserve_spec [Inhabited T] (E : ElemOps T) (n : Nat) (v : SimpleVector T) (h : Wf v) :
    ∃ w, Reserve E n v = some w ∧ Wf w ∧ w.size_ = v.size_ ∧
      w.capacity_ = (if n ≤ v.capacity_ then v.capacity_ else n) ∧
      ∀ j, j < v.size_ → w.array_.raw_ptr_[j]? = v.array_.raw_ptr_[j]? := by
  have hsc := h.1
  by_cases c : n > v.capacity_
  · obtain ⟨w, hr, hwf, hsz, hcap, hg⟩ := Resize_spec E n v h
    have hn1 : ¬ n ≤ v.capacity_ := by omega
    rw [if_neg hn1] at hcap
    refine ⟨{ w with size_ := v.size_ }, ?_, ⟨?_, hwf.2⟩, rfl, ?_, ?_⟩
    · simp [Reserve, c, hr]
    · show v.size_ ≤ w.capacity_
      omega
    · show w.capacity_ = _
      rw [if_neg hn1, hcap]
    · intro j hj
      show w.array_.raw_ptr_[j]? = _
      rw [hg j (by omega), if_pos hj]
  · have hn1 : n ≤ v.capacity_ := by omega
    refine ⟨v, ?_, h, rfl, ?_, fun _ _ => rfl⟩
    · simp [Reserve, c]
    · rw [if_pos hn1]

theorem copyCtor_spec (E : ElemOps T) (c : SimpleVector T) (h : Wf c) :
    ∃ w, copyCtor E c = some w ∧ Wf w ∧ w.size_ = c.size_ ∧ w.capacity_ = c.capacity_ ∧
      ∀ j, j < c.size_ → w.array_.raw_ptr_[j]? = c.array_.raw_ptr_[j]? := by
  obtain ⟨hsc, hlen⟩ := h
  obtain ⟨a, hf, hl, hget⟩ := stdCopy_spec c.array_ 0 c.size_ (ArrayPtr.alloc E c.capacity_) 0
    (Nat.zero_le _) (by omega) (by rw [alloc_length]; omega)
  rw [alloc_length] at hl
  refine ⟨{ size_ := c.size_, capacity_ := c.capacity_, array_ := a }, ?_, ⟨hsc, hl⟩,
    rfl, rfl, ?_⟩
  · simp only [copyCtor, hf]
  · intro j hj
    show a.raw_ptr_[j]? = _
    have e : 0 ≤ j ∧ j < 0 + (c.size_ - 0) := by omega
    rw [hget j, if_pos e]
    simp

theorem toList_eq_of_slots (v w : SimpleVector T) (hsz : w.size_ = v.size_)
    (hg : ∀ j, j < v.size_ → w.array_.raw_ptr_[j]? = v.array_.raw_ptr_[j]?) :
    w.toList = v.toList := by
  apply List.ext_getElem?
  intro j
  rw [toList_getElem?, toList_getElem?, hsz]
  by_cases c : j < v.size_
  · rw [if_pos c, if_pos c, hg j c]
  · rw [if_neg c, if_neg c]

theorem PreInsertLoop_self (E : ElemOps T) (n : Nat) (a : ArrayPtr T) :
    PreInsertLoop E n n a = some a := by
  cases n with
  | zero => rfl
  | succ k =>
    have : ¬ k + 1 ≤ k := by omega
    simp [PreInsertLoop, this]

theorem EraseLoop_self (E : ElemOps T) (a : ArrayPtr T) (i : Nat) :
    EraseLoop E a i i = some a := by
  rw [EraseLoop]
  simp

/-! ## Checked access -/

/-- C11: `At(i)` throws `std::out_of_range` exactly when `i ≥ size`; for `i < size` it returns
an element, the same one as the unchecked `operator[](i)`.  `At` only reads the vector. -/
theorem At_checked (v : SimpleVector T) (i : Nat) (h : Wf v) :
    ((∃ e, At v i = Except.error e) ↔ GetSize v ≤ i) ∧
    (GetSize v ≤ i → At v i = Except.error (Exn.out_of_range "Array size exceeding")) ∧
    (i < GetSize v → ∃ x, At v i = Except.ok (some x) ∧ index v i = some x) := by
  have herr : v.size_ ≤ i → At v i = Except.error (Exn.out_of_range "Array size exceeding") := by
    intro hi
    have : i ≥ v.size_ := hi
    simp [At, this]
  have hok : i < v.size_ → ∃ x, At v i = Except.ok (some x) ∧ index v i = some x := by
    intro hi
    have hin : i < v.array_.raw_ptr_.length := by
      have := h.1
      have := h.2
      omega
    have hn : ¬ i ≥ v.size_ := by omega
    refine ⟨v.array_.raw_ptr_[i], ?_, ?_⟩
    · simp [At, hn, load_of_lt hin]
    · rw [index_eq, if_pos hi, List.getElem?_eq_getElem hin]
  refine ⟨⟨?_, ?_⟩, herr, hok⟩
  · intro ⟨e, he⟩
    by_contra hc
    obtain ⟨x, hx, _⟩ := hok (by
      have : ¬ v.size_ ≤ i := hc
      omega)
    rw [hx] at he
    cases he
  · intro hi
    exact ⟨_, herr hi⟩

theorem At_checked_witness :
    Wf (⟨3, 3, ⟨[1, 2, 3]⟩⟩ : SimpleVector Nat) ∧
    (((∃ e, At (⟨3, 3, ⟨[1, 2, 3]⟩⟩ : SimpleVector Nat) 10 = Except.error e) ↔
      GetSize (⟨3, 3, ⟨[1, 2, 3]⟩⟩ : SimpleVector Nat) ≤ 10) ∧
    (GetSize (⟨3, 3, ⟨[1, 2, 3]⟩⟩ : SimpleVector Nat) ≤ 10 →
      At (⟨3, 3, ⟨[1, 2, 3]⟩⟩ : SimpleVector Nat) 10 =
        Except.error (Exn.out_of_range "Array size exceeding")) ∧
    (10 < GetSize (⟨3, 3, ⟨[1, 2, 3]⟩⟩ : SimpleVector Nat) →
      ∃ x, At (⟨3, 3, ⟨[1, 2, 3]⟩⟩ : SimpleVector Nat) 10 = Except.ok (some x) ∧
        index (⟨3, 3, ⟨[1, 2, 3]⟩⟩ : SimpleVector Nat) 10 = some x)) :=
  ⟨by decide, At_checked ⟨3, 3, ⟨[1, 2, 3]⟩⟩ 10 (by decide)⟩

/-! ## The invariant -/

/-- C13: the copy constructor applied to `c`, and copy assignment from `c` to another vector
(whatever it held), return a vector with the size, the capacity and the element sequence of `c`.
Both read `c` through a const reference and return no new state for it. -/
theorem copy_is_equal [Inhabited T] (E : ElemOps T) (c dst : SimpleVector T) (h : Wf c) :
    (∃ w, copyCtor E c = some w ∧ GetSize w = GetSize c ∧ GetCapacity w = GetCapacity c ∧
      w.toList = c.toList ∧ ∀ i, index w i = index c i) ∧
    (∃ w, copyAssign E dst (RhsRef.obj c) = some w ∧ GetSize w = GetSize c ∧
      GetCapacity w = GetCapacity c ∧ w.toList = c.toList ∧ ∀ i, index w i = index c i) := by
  obtain ⟨w, hw, _, hsz, hcap, hg⟩ := copyCtor_spec E c h
  have hl : w.toList = c.toList := toList_eq_of_slots c w hsz hg
  have hi : ∀ i, index w i = index c i := by
    intro i
    rw [index_eq_toList, index_eq_toList, hl]
  refine ⟨⟨w, hw, hsz, hcap, hl, hi⟩, ⟨w, ?_, hsz, hcap, hl, hi⟩⟩
  simp [copyAssign, hw, swap, ArrayPtr.swap]

theorem copy_is_equal_witness :
    Wf sampleSpare ∧
    ((∃ w, copyCtor natOps sampleSpare = some w ∧ GetSize w = GetSize sampleSpare ∧
      GetCapacity w = GetCapacity sampleSpare ∧
      w.toList = sampleSpare.toList ∧ ∀ i, index w i = index sampleSpare i) ∧
    (∃ w, copyAssign natOps sampleFull (RhsRef.obj sampleSpare) = some w ∧
      GetSize w = GetSize sampleSpare ∧ GetCapacity w = GetCapacity sampleSpare ∧
      w.toList = sampleSpare.toList ∧ ∀ i, index w i = index sampleSpare i)) :=
  ⟨by decide, copy_is_equal natOps sampleSpare sampleFull (by decide)⟩

/-- C14: move construction from `c` returns a vector that is exactly `c` as it was (size,
capacity and buffer) and leaves `c` as the empty vector, of size 0. -/
theorem moveCtor_transfers (c : SimpleVector T) :
    (moveCtor c).1 = c ∧ (moveCtor c).2 = SimpleVector.empty ∧ GetSize (moveCtor c).2 = 0 ∧
    (moveCtor c).1.toList = c.toList :=
  ⟨rfl, rfl, rfl, rfl⟩

/-- C15, as the claim states it, fails: move assignment to a vector that holds `4, 5` with a
stale third slot from the vector `7` leaves the source with size 2, not 0. -/
theorem moveAssign_source_not_emptied :
    ¬ ((moveAssign sampleSpare (RhsRef.obj sampleFull)).1 = sampleFull ∧
       GetSize (moveAssign sampleSpare (RhsRef.obj sampleFull)).2 = 0) := by
  decide

/-- C15, amended: move assignment between two distinct vectors swaps them.  The destination is
exactly the source as it was (size, capacity and buffer), the source is exactly the destination
as it was, and so the source is left with size 0 exactly when the destination had size 0. -/
theorem moveAssign_swaps (dst src : SimpleVector T) :
    (moveAssign dst (RhsRef.obj src)).1 = src ∧ (moveAssign dst (RhsRef.obj src)).2 = dst ∧
    (GetSize (moveAssign dst (RhsRef.obj src)).2 = 0 ↔ GetSize dst = 0) :=
  ⟨rfl, rfl, Iff.rfl⟩

/-! ## Ordering -/

/-- C16: over a linearly ordered element type `a < b` returns, and it returns `true` exactly
when the element sequence of `a` is lexicographically smaller than that of `b`: at the first
index where the elements differ the comparison of those two elements is the answer, a proper
prefix is smaller, and the answer is `false` when the sizes are equal and all elements are
pairwise equal. -/
theorem operator_lt_lexicographic [LinearOrder T] (a b : SimpleVector T)
    (ha : Wf a) (hb : Wf b) :
    operator_lt a b = some (lexLess a.toList b.toList) ∧
    (operator_lt a b = some true ↔ List.Lex (fun x y => x < y) a.toList b.toList) ∧
    (∀ i x y, index a i = some x → index b i = some y →
      (∀ j, j < i → index a j = index b j) → x ≠ y →
      operator_lt a b = some (decide (x < y))) ∧
    (GetSize a < GetSize b → (∀ j, j < GetSize a → index a j = index b j) →
      operator_lt a b = some true) ∧
    (GetSize a = GetSize b → (∀ j, j < GetSize a → index a j = index b j) →
      operator_lt a b = some false) := by
  have hs := operator_lt_spec a b ha hb
  refine ⟨hs, ?_, ?_, ?_, ?_⟩
  · rw [hs, ← lexLess_iff_Lex]
    simp
  · intro i x y hx hy hpre hne
    rw [hs]
    congr 1
    apply lexLess_first_diff i a.toList b.toList x y
    · rw [← index_eq_toList]; exact hx
    · rw [← index_eq_toList]; exact hy
    · intro j hj
      rw [← index_eq_toList, ← index_eq_toList]
      exact hpre j hj
    · exact hne
  · intro hlt hpre
    rw [hs]
    congr 1
    apply lexLess_proper_prefix
    · rw [toList_length ha, toList_length hb]
      exact hlt
    · intro j hj
      rw [toList_length ha] at hj
      rw [← index_eq_toList, ← index_eq_toList]
      exact hpre j hj
  · intro heq hpre
    have hsz : a.size_ = b.size_ := heq
    have hl : a.toList = b.toList := by
      apply List.ext_getElem?
      intro j
      by_cases c : j < a.size_
      · rw [← index_eq_toList, ← index_eq_toList]
        exact hpre j c
      · rw [toList_getElem?, toList_getElem?, if_neg c, if_neg (by omega)]
    rw [hs, hl, lexLess_self]

theorem operator_lt_lexicographic_witness :
    Wf sampleSpare ∧ Wf sampleFull ∧
    (operator_lt sampleSpare sampleFull = some (lexLess sampleSpare.toList sampleFull.toList) ∧
    (operator_lt sampleSpare sampleFull = some true ↔
      List.Lex (fun x y => x < y) sampleSpare.toList sampleFull.toList) ∧
    (∀ i x y, index sampleSpare i = some x → index sampleFull i = some y →
      (∀ j, j < i → index sampleSpare j = index sampleFull j) → x ≠ y →
      operator_lt sampleSpare sampleFull = some (decide (x < y))) ∧
    (GetSize sampleSpare < GetSize sampleFull →
      (∀ j, j < GetSize sampleSpare → index sampleSpare j = index sampleFull j) →
      operator_lt sampleSpare sampleFull = some true) ∧
    (GetSize sampleSpare = GetSize sampleFull →
      (∀ j, j < GetSize sampleSpare → index sampleSpare j = index sampleFull j) →
      operator_lt sampleSpare sampleFull = some false)) :=
  ⟨by decide, by decide, operator_lt_lexicographic sampleSpare sampleFull (by decide) (by decide)⟩

/-- C17 (the code departs from the claim, through the defect of C1): on the vectors built from
`{1, 2}` and `{1, 2, 3}`, `a >= b` returns `false` while `a > b || a == b` is `true`, because
`a == b` returns `true`; and with `a` built from `{1, 2, 3}` and `b` the same vector after
`PopBack`, `a <= b` returns `false` while `a < b || a == b` is `true`. -/
theorem derived_comparisons_disagree_with_eq :
    operator_ge (⟨2, 2, ⟨[1, 2]⟩⟩ : SimpleVector Nat) ⟨3, 3, ⟨[1, 2, 3]⟩⟩ = some false ∧
    operator_gt (⟨2, 2, ⟨[1, 2]⟩⟩ : SimpleVector Nat) ⟨3, 3, ⟨[1, 2, 3]⟩⟩ = some false ∧
    operator_eq (⟨2, 2, ⟨[1, 2]⟩⟩ : SimpleVector Nat) ⟨3, 3, ⟨[1, 2, 3]⟩⟩ = some true ∧
    PopBack (⟨3, 3, ⟨[1, 2, 3]⟩⟩ : SimpleVector Nat) = some ⟨2, 3, ⟨[1, 2, 3]⟩⟩ ∧
    operator_le (⟨3, 3, ⟨[1, 2, 3]⟩⟩ : SimpleVector Nat) ⟨2, 3, ⟨[1, 2, 3]⟩⟩ = some false ∧
    operator_lt (⟨3, 3, ⟨[1, 2, 3]⟩⟩ : SimpleVector Nat) ⟨2, 3, ⟨[1, 2, 3]⟩⟩ = some false ∧
    operator_eq (⟨3, 3, ⟨[1, 2, 3]⟩⟩ : SimpleVector Nat) ⟨2, 3, ⟨[1, 2, 3]⟩⟩ = some true := by
  refine ⟨?_, ?_, ?_, by decide, ?_, ?_, ?_⟩
  · simp [operator_ge, operator_lt, lexicographical_compare, ArrayPtr.load]
  · simp [operator_gt, operator_lt, lexicographical_compare, ArrayPtr.load]
  · simp [operator_eq, stdEqual, ArrayPtr.load]
  · simp [operator_le, operator_lt, lexicographical_compare, ArrayPtr.load]
  · simp [operator_lt, lexicographical_compare, ArrayPtr.load]
  · simp [operator_eq, stdEqual, ArrayPtr.load]

/-! ## The growth rule -/

/-- C19 (the code departs from its doc comments): on the full vector holding the single element
`7`, of capacity 1, both `PushBack(9)` and `Insert(begin(), 9)` return a vector of capacity 3,
where the doc comments promise twice the old capacity, 2. -/
theorem full_vector_growth_is_not_doubling :
    GetSize sampleFull = GetCapacity sampleFull ∧ 0 < GetCapacity sampleFull ∧
    (∃ w, PushBack natOps Overload.copy (ItemRef.outside 9) sampleFull = some w ∧
      GetCapacity w = 3 ∧
      GetCapacity w ≠ 2 * GetCapacity sampleFull) ∧
    (∃ u p, Insert natOps Overload.copy 0 (ItemRef.outside 9) sampleFull = some (u, p) ∧
      GetCapacity u = 3 ∧
      GetCapacity u ≠ 2 * GetCapacity sampleFull) := by
  refine ⟨by decide, by decide, ?_, ?_⟩
  · obtain ⟨w, hw, _, _, hcw, _⟩ := PushBack_spec natOps Overload.copy 9 sampleFull (by decide)
    have h3 : w.capacity_ = 3 := hcw
    refine ⟨w, hw, h3, ?_⟩
    show w.capacity_ ≠ 2 * 1
    omega
  · obtain ⟨u, hu, _, _, hcu, _⟩ := Insert_spec natOps Overload.copy 0 9 sampleFull (by decide) (by decide)
    have h3 : u.capacity_ = 3 := hcu
    refine ⟨u, 0, hu, h3, ?_⟩
    show u.capacity_ ≠ 2 * 1
    omega

/-! ## Operations at the end -/

/-- C20: `Insert(end(), x)` returns exactly the vector that `PushBack(x)` returns from the same
state (same size, capacity and buffer), and on a non-empty vector `Erase(end() - 1)` returns
exactly the vector that `PopBack()` returns.  The two insertions also agree, result for result,
for every reference argument, one into the buffer included. -/
theorem end_operations_agree [Inhabited T] (E : ElemOps T) (ov : Overload) (x : T)
    (v : SimpleVector T) (h : Wf v) :
    (∃ w, PushBack E ov (ItemRef.outside x) v = some w ∧
      Insert E ov v.end_ (ItemRef.outside x) v = some (w, v.end_)) ∧
    (IsEmpty v = false →
      ∃ w, PopBack v = some w ∧ Erase E (v.end_ - 1) v = some (w, v.end_ - 1)) ∧
    (∀ item : ItemRef T,
      Insert E ov v.end_ item v = (PushBack E ov item v).map fun w => (w, v.end_)) := by
  refine ⟨?_, ?_, ?_⟩
  · obtain ⟨w, hw, _⟩ := PushBack_spec E ov x v h
    refine ⟨w, hw, ?_⟩
    obtain ⟨v1, hg, hl, hroom, _, _⟩ := grow_spec E v h
    have hin : v.size_ < v1.array_.raw_ptr_.length := by omega
    simp only [PushBack, hg, assignItem_outside, store_of_lt x hin] at hw
    simp only [Insert, PreInsert, SimpleVector.end_, hg, PreInsertLoop_self,
      assignItem_outside, store_of_lt x hin]
    cases hw
    rfl
  · intro hne
    have hz : v.size_ ≠ 0 := by
      intro hz
      simp [IsEmpty, hz] at hne
    refine ⟨{ v with size_ := v.size_ - 1 }, ?_, ?_⟩
    · simp [PopBack, hne]
    · simp only [Erase, SimpleVector.end_, hz, if_false, EraseLoop_self]
  · intro item
    simp only [Insert, PreInsert, PushBack, SimpleVector.end_]
    cases hg : (if v.size_ = v.capacity_ then Resize E (2 * v.capacity_ + 1) v else some v) with
    | none => rfl
    | some v1 =>
      simp only [PreInsertLoop_self]
      cases assignItem E ov item (growReleases v) v1.array_ v.size_ <;> rfl

theorem end_operations_agree_witness :
    Wf sampleFull ∧
    ((∃ w, PushBack natOps Overload.copy (ItemRef.outside 9) sampleFull = some w ∧
      Insert natOps Overload.copy sampleFull.end_ (ItemRef.outside 9) sampleFull =
        some (w, sampleFull.end_)) ∧
    (IsEmpty sampleFull = false →
      ∃ w, PopBack sampleFull = some w ∧
        Erase natOps (sampleFull.end_ - 1) sampleFull = some (w, sampleFull.end_ - 1)) ∧
    (∀ item : ItemRef Nat,
      Insert natOps Overload.copy sampleFull.end_ item sampleFull =
        (PushBack natOps Overload.copy item sampleFull).map fun w => (w, sampleFull.end_))) :=
  ⟨by decide, end_operations_agree natOps Overload.copy 9 sampleFull (by decide)⟩

end SimpleVec
